import Mathlib

/-!
Shallow embedding of the document ingestion / enrichment / metadata pipeline
implemented in `src/documents/document.service.ts` of the legal-eagle
repository, together with proofs about the claims of its specification.

Conventions of the embedding:
* JavaScript's three-valued optionality (`undefined` / `null` / value) is
  modeled by the `JsVal` type; plain `Option` is used where only two states
  can occur.
* JSON values (`Prisma.JsonValue`) are modeled by the inductive `Json`.
  JSON numbers are modeled exactly as decimal mantissa/exponent pairs
  (`num m e` denotes `m * 10 ^ e`); binary floating point is outside the
  embedding.
* `JSON.parse` / `JSON.stringify` are modeled by an executable parser and
  serializer over `Json` (`jsonParse` / `jsonStringify`).
* Thrown exceptions are modeled with `Except DocError`.
-/

/-- Left brace character, written via its code point. -/
def lbrace : Char := Char.ofNat 123

/-- Right brace character, written via its code point. -/
def rbrace : Char := Char.ofNat 125

/-- JSON value model for `Prisma.JsonValue`. A number `num m e` denotes the
exact decimal value `m * 10 ^ e`. Object member order is tracked, matching
JavaScript's key-insertion order. -/
inductive Json where
  | null : Json
  | bool (b : Bool) : Json
  | num (mant : Int) (exp10 : Int) : Json
  | str (s : String) : Json
  | arr (elems : List Json) : Json
  | obj (members : List (String × Json)) : Json

/-- Whitespace recognized by the JSON grammar (also the set trimmed by the
`trim` calls of the service, restricted to ASCII). -/
def isWsChar (c : Char) : Bool := c = ' ' || c = '\t' || c = '\n' || c = '\r'

/-- Decimal digit test. -/
def isDigitChar (c : Char) : Bool := '0' ≤ c && c ≤ '9'

/-- Character for a decimal digit value. -/
def digitChar (n : Nat) : Char := Char.ofNat (48 + n)

/-- Numeric value of a decimal digit character. -/
def digitVal (c : Char) : Nat := c.toNat - 48

/-- Lower-case hexadecimal digit character, as emitted by `JSON.stringify`
escape sequences. -/
def hexDigitChar (n : Nat) : Char :=
  if n < 10 then Char.ofNat (48 + n) else Char.ofNat (87 + n)

/-- Value of a hexadecimal digit character, if any. -/
def hexVal (c : Char) : Option Nat :=
  if '0' ≤ c && c ≤ '9' then some (c.toNat - 48)
  else if 'a' ≤ c && c ≤ 'f' then some (c.toNat - 87)
  else if 'A' ≤ c && c ≤ 'F' then some (c.toNat - 55)
  else none

/-- Decimal rendering of a natural number, most significant digit first.
The first argument is recursion fuel; `n + 1` units always suffice. -/
def renderNatFuel : Nat → Nat → List Char
  | 0, _ => []
  | f + 1, n => if n < 10 then [digitChar n] else renderNatFuel f (n / 10) ++ [digitChar (n % 10)]

/-- Decimal rendering of a natural number. -/
def renderNat (n : Nat) : List Char := renderNatFuel (n + 1) n

/-- Decimal rendering of an integer. -/
def renderInt (i : Int) : List Char :=
  if i < 0 then '-' :: renderNat i.natAbs else renderNat i.natAbs

/-- Escape of one character inside a JSON string literal, following
`JSON.stringify`: quote, backslash and the named control escapes get
two-character escapes, remaining control characters get `\u00XX`, everything
else is emitted verbatim. -/
def escapeChar (c : Char) : List Char :=
  if c = '"' then ['\\', '"']
  else if c = '\\' then ['\\', '\\']
  else if c = '\n' then ['\\', 'n']
  else if c = '\t' then ['\\', 't']
  else if c = '\r' then ['\\', 'r']
  else if c = Char.ofNat 8 then ['\\', 'b']
  else if c = Char.ofNat 12 then ['\\', 'f']
  else if c.toNat < 32 then
    ['\\', 'u', '0', '0', hexDigitChar (c.toNat / 16), hexDigitChar (c.toNat % 16)]
  else [c]

/-- Escape of a whole string body. -/
def escapeList : List Char → List Char
  | [] => []
  | c :: rest => escapeChar c ++ escapeList rest

mutual
/-- Serialization of a JSON value, following `JSON.stringify` (no added
whitespace, member order preserved). -/
def render : Json → List Char
  | .null => 'n' :: 'u' :: 'l' :: 'l' :: []
  | .bool true => 't' :: 'r' :: 'u' :: 'e' :: []
  | .bool false => 'f' :: 'a' :: 'l' :: 's' :: 'e' :: []
  | .num m e => renderInt m ++ (if e = 0 then [] else 'e' :: renderInt e)
  | .str s => '"' :: escapeList s.data ++ '"' :: []
  | .arr xs => '[' :: renderElems xs ++ [']']
  | .obj kvs => lbrace :: renderMembers kvs ++ [rbrace]

/-- Serialization of array elements, comma separated. -/
def renderElems : List Json → List Char
  | [] => []
  | [x] => render x
  | x :: y :: rest => render x ++ ',' :: renderElems (y :: rest)

/-- Serialization of object members, comma separated. -/
def renderMembers : List (String × Json) → List Char
  | [] => []
  | [(k, v)] => '"' :: escapeList k.data ++ '"' :: ':' :: render v
  | (k, v) :: m :: rest =>
    ('"' :: escapeList k.data ++ '"' :: ':' :: render v) ++ ',' :: renderMembers (m :: rest)
end

/-- String form of `JSON.stringify` on the JSON model. -/
def jsonStringify (j : Json) : String := String.mk (render j)

/-- Consumption of leading JSON whitespace. -/
def skipWs (cs : List Char) : List Char := cs.dropWhile isWsChar

/-- Parser for the body of a JSON string literal (after the opening quote).
Returns the decoded characters and the remaining input after the closing
quote. Unescaped control characters are rejected, as `JSON.parse` does. -/
def parseStrBody : List Char → Option (List Char × List Char)
  | [] => none
  | c :: rest =>
    if c = '"' then some ([], rest)
    else if c = '\\' then
      match rest with
      | [] => none
      | e :: rest2 =>
        if e = '"' then (parseStrBody rest2).map (fun p => ('"' :: p.1, p.2))
        else if e = '\\' then (parseStrBody rest2).map (fun p => ('\\' :: p.1, p.2))
        else if e = '/' then (parseStrBody rest2).map (fun p => ('/' :: p.1, p.2))
        else if e = 'n' then (parseStrBody rest2).map (fun p => ('\n' :: p.1, p.2))
        else if e = 't' then (parseStrBody rest2).map (fun p => ('\t' :: p.1, p.2))
        else if e = 'r' then (parseStrBody rest2).map (fun p => ('\r' :: p.1, p.2))
        else if e = 'b' then (parseStrBody rest2).map (fun p => (Char.ofNat 8 :: p.1, p.2))
        else if e = 'f' then (parseStrBody rest2).map (fun p => (Char.ofNat 12 :: p.1, p.2))
        else if e = 'u' then
          match rest2 with
          | h1 :: h2 :: h3 :: h4 :: rest3 =>
            match hexVal h1, hexVal h2, hexVal h3, hexVal h4 with
            | some a, some b, some c2, some d =>
              (parseStrBody rest3).map
                (fun p => (Char.ofNat (((a * 16 + b) * 16 + c2) * 16 + d) :: p.1, p.2))
            | _, _, _, _ => none
          | _ => none
        else none
    else if c.toNat < 32 then none
    else (parseStrBody rest).map (fun p => (c :: p.1, p.2))

/-- Big-endian decimal digit list to natural number. -/
def digitsToNatD (ds : List Char) : Nat := ds.foldl (fun a c => 10 * a + digitVal c) 0

/-- Optional leading minus sign of a JSON number literal. -/
def numSign (cs : List Char) : Bool × List Char :=
  match cs with
  | '-' :: r => (true, r)
  | _ => (false, cs)

/-- Optional sign of a JSON exponent part. -/
def expSign (r3 : List Char) : Int × List Char :=
  match r3 with
  | '+' :: rr => (1, rr)
  | '-' :: rr => (-1, rr)
  | _ => (1, r3)

/-- Optional fraction part of a JSON number literal: extends the mantissa and
lowers the decimal exponent. -/
def numFrac (intVal : Int) (cs2 : List Char) : Option (Int × Int × List Char) :=
  match cs2 with
  | '.' :: r =>
    let fs := r.takeWhile isDigitChar
    let r2 := r.dropWhile isDigitChar
    if fs = [] then none
    else some (intVal * (10 : Int) ^ fs.length + (digitsToNatD fs : Nat), -(fs.length : Int), r2)
  | _ => some (intVal, 0, cs2)

/-- Optional exponent part of a JSON number literal. -/
def numExp (mant e : Int) (cs3 : List Char) : Option (Json × List Char) :=
  match cs3 with
  | c :: r3 =>
    if c = 'e' || c = 'E' then
      let sg := expSign r3
      let es := sg.2.takeWhile isDigitChar
      let r5 := sg.2.dropWhile isDigitChar
      if es = [] then none
      else some (Json.num mant (e + sg.1 * (digitsToNatD es : Nat)), r5)
    else some (Json.num mant e, cs3)
  | [] => some (Json.num mant e, [])

/-- Parser for a JSON numeric literal, covering the full JSON number grammar
(optional sign, integer part without leading zeros, optional fraction,
optional exponent). The decimal value is represented exactly. -/
def parseNumBody (cs : List Char) : Option (Json × List Char) :=
  let sn := numSign cs
  let ds := sn.2.takeWhile isDigitChar
  let cs2 := sn.2.dropWhile isDigitChar
  if ds = [] then none
  else if ds.length > 1 && ds.headD 'x' = '0' then none
  else
    match numFrac ((digitsToNatD ds : Nat) : Int) cs2 with
    | none => none
    | some (mant, e, cs3) => numExp (if sn.1 then -mant else mant) e cs3

mutual
/-- Fuel-indexed parser for one JSON value, following `JSON.parse`. Returns
the value and the unconsumed remainder. -/
def parseVal : Nat → List Char → Option (Json × List Char)
  | 0, _ => none
  | f + 1, cs =>
    match skipWs cs with
    | [] => none
    | c :: r =>
      if c = 'n' then
        match r with
        | 'u' :: 'l' :: 'l' :: r2 => some (Json.null, r2)
        | _ => none
      else if c = 't' then
        match r with
        | 'r' :: 'u' :: 'e' :: r2 => some (Json.bool true, r2)
        | _ => none
      else if c = 'f' then
        match r with
        | 'a' :: 'l' :: 's' :: 'e' :: r2 => some (Json.bool false, r2)
        | _ => none
      else if c = '"' then
        (parseStrBody r).map (fun p => (Json.str (String.mk p.1), p.2))
      else if c = '[' then
        match skipWs r with
        | ']' :: r2 => some (Json.arr [], r2)
        | r1 => (parseElems f r1).map (fun p => (Json.arr p.1, p.2))
      else if c = lbrace then
        match skipWs r with
        | c2 :: r2 =>
          if c2 = rbrace then some (Json.obj [], r2)
          else (parseMembers f (c2 :: r2)).map (fun p => (Json.obj p.1, p.2))
        | [] => none
      else if c = '-' || isDigitChar c then parseNumBody (c :: r)
      else none

/-- Fuel-indexed parser for one or more comma-separated array elements up to
and including the closing bracket. -/
def parseElems : Nat → List Char → Option (List Json × List Char)
  | 0, _ => none
  | f + 1, cs =>
    match parseVal f cs with
    | none => none
    | some (v, r1) =>
      match skipWs r1 with
      | ',' :: r2 => (parseElems f r2).map (fun p => (v :: p.1, p.2))
      | ']' :: r2 => some ([v], r2)
      | _ => none

/-- Fuel-indexed parser for one or more comma-separated object members up to
and including the closing brace. -/
def parseMembers : Nat → List Char → Option (List (String × Json) × List Char)
  | 0, _ => none
  | f + 1, cs =>
    match skipWs cs with
    | '"' :: r =>
      match parseStrBody r with
      | none => none
      | some (kcs, r1) =>
        match skipWs r1 with
        | ':' :: r2 =>
          match parseVal f r2 with
          | none => none
          | some (v, r3) =>
            match skipWs r3 with
            | ',' :: r4 => (parseMembers f r4).map (fun p => ((String.mk kcs, v) :: p.1, p.2))
            | c :: r4 => if c = rbrace then some ([(String.mk kcs, v)], r4) else none
            | [] => none
        | _ => none
    | _ => none
end

/-- Model of `JSON.parse`: parse one value, allow trailing whitespace only. -/
def jsonParse (s : String) : Option Json :=
  match parseVal (s.data.length + 1) s.data with
  | some (j, rest) => if skipWs rest = [] then some j else none
  | none => none


/-- JavaScript three-valued optionality: a value may be `undefined`, `null`,
or present. -/
inductive JsVal (α : Type) where
  | undef : JsVal α
  | null : JsVal α
  | val (a : α) : JsVal α
deriving DecidableEq

/-- JavaScript nullish coalescing `a ?? b`: `undefined` and `null` both fall
through to the right operand. -/
def JsVal.coalesce {α : Type} : JsVal α → JsVal α → JsVal α
  | .val a, _ => .val a
  | _, b => b

/-- Model of JavaScript `String.prototype.trim` (ASCII whitespace). -/
def jsTrim (s : String) : String :=
  String.mk (((s.data.dropWhile isWsChar).reverse.dropWhile isWsChar).reverse)

/-- ASCII lower-casing of one character, for `toLowerCase`. -/
def toLowerChar (c : Char) : Char :=
  if 'A' ≤ c && c ≤ 'Z' then Char.ofNat (c.toNat + 32) else c

/-- ASCII lower-casing of a string, for `toLowerCase`. -/
def toLowerStr (s : String) : String := String.mk (s.data.map toLowerChar)

/-- Does the second list occur at the start of the first? -/
def startsWithList : List Char → List Char → Bool
  | _, [] => true
  | [], _ :: _ => false
  | c :: cs, p :: ps => c = p && startsWithList cs ps

/-- Does the needle occur anywhere in the haystack? -/
def containsList (needle : List Char) : List Char → Bool
  | [] => needle.isEmpty
  | c :: cs => startsWithList (c :: cs) needle || containsList needle cs

/-- Model of JavaScript `String.prototype.includes`. -/
def containsSub (hay needle : String) : Bool := containsList needle.data hay.data

/-- Exceptions thrown by the service (`BadRequestException`,
`UnsupportedMediaTypeException`, `NotFoundException`). -/
inductive DocError where
  | badRequest (msg : String) : DocError
  | unsupportedMediaType (msg : String) : DocError
  | notFound (msg : String) : DocError
deriving DecidableEq

/-- Supported file kinds of the classifier (`type FileKind`). -/
inductive FileKind where
  | pdf : FileKind
  | html : FileKind
  | unknown : FileKind
deriving DecidableEq

/-- Model of Node's `path.extname` (posix): the extension of the basename of
the path, from its last dot; empty when the basename has no dot, when its
only dot is its first character, or when the basename is `..`. -/
def extname (p : String) : String :=
  let rbase := ((p.data.reverse).dropWhile (fun c => c = '/')).takeWhile (fun c => c ≠ '/')
  match rbase.dropWhile (fun c => c ≠ '.') with
  | [] => ""
  | [_] => ""
  | _ :: _ :: _ =>
    if rbase = ['.', '.'] then ""
    else String.mk ('.' :: (rbase.takeWhile (fun c => c ≠ '.')).reverse)

/-- Embedding of `DocumentService.detectFileKind`. A blank filename throws a
`BadRequestException`; otherwise the MIME type and the lower-cased extension
decide the kind, with the pdf test first. -/
def detectFileKind (filename : String) (mimetype : Option String) : Except DocError FileKind :=
  if filename = "" || jsTrim filename = "" then
    .error (.badRequest "Filename must be provided to detect file type.")
  else
    let normalizedMime := (mimetype.map toLowerStr).getD ""
    let extension := toLowerStr (extname filename)
    if containsSub normalizedMime "pdf" || extension = ".pdf" then .ok .pdf
    else if containsSub normalizedMime "html" || extension = ".html" || extension = ".htm" then
      .ok .html
    else .ok .unknown

/-- Embedding of `DocumentService.parseJsonField`: a falsy value (absent,
`null`, or the empty string) yields no value; otherwise the string must parse
as JSON or a `BadRequestException` naming the field is thrown. -/
def parseJsonField (label : String) (value : JsVal String) : Except DocError (Option Json) :=
  match value with
  | .val s =>
    if s = "" then .ok none
    else
      match jsonParse s with
      | some j => .ok (some j)
      | none => .error (.badRequest (label ++ " must be valid JSON when provided."))
  | _ => .ok none

/-- Embedding of `DocumentService.parseMetadata`: a non-string or
blank/whitespace-only input yields no value; otherwise defer to
`parseJsonField` under the label `metadata`. -/
def parseMetadata (metadata : JsVal String) : Except DocError (Option Json) :=
  match metadata with
  | .val s => if jsTrim s = "" then .ok none else parseJsonField "metadata" (.val s)
  | _ => .ok none

/-- Embedding of `DocumentService.parseAreaData`: direct delegation to
`parseJsonField` under the label `areaData` (no trimming). -/
def parseAreaData (areaData : JsVal String) : Except DocError (Option Json) :=
  parseJsonField "areaData" areaData

/-- JavaScript object-spread assignment of one key: overwrite in place when
the key exists, append otherwise. -/
def setKey : List (String × Json) → String → Json → List (String × Json)
  | [], k, v => [(k, v)]
  | (k0, v0) :: rest, k, v =>
    if k0 = k then (k0, v) :: rest else (k0, v0) :: setKey rest k v

/-- JavaScript object spread `\x7b...base, ...add\x7d`: the keys of `add`
overwrite matching keys of `base` and are appended otherwise, in order. -/
def spreadList (base add : List (String × Json)) : List (String × Json) :=
  add.foldl (fun acc kv => setKey acc kv.1 kv.2) base

/-- Is this JSON value a non-array object? -/
def isObjJson : Json → Bool
  | .obj _ => true
  | _ => false

/-- Embedding of `DocumentService.mergeMetadata`: a caller object gets the
additional fields spread over it; any other present caller value is wrapped
as `value`; an absent caller value leaves the additional record alone. -/
def mergeMetadata (metadata : Option Json) (additional : List (String × Json)) : Json :=
  match metadata with
  | some (.obj kvs) => .obj (spreadList kvs additional)
  | some j => .obj (spreadList [("value", j)] additional)
  | none => .obj additional

/-- Normalized field set of an `AiExtractionResult` (`fields` member). The
`date` member holds the source string of the parsed `Date`. -/
structure AiFields where
  title : Option String
  date : Option String
  court : Option String
  caseNumber : Option String
  summary : Option String
  caseType : Option String
  area : Option String
  areaData : Option Json
  metadata : Option Json

/-- Embedding of `AiExtractionResult`: normalized fields plus the raw JSON
echo of the model payload. -/
structure AiExtractionResult where
  fields : AiFields
  json : List (String × Json)

/-- Embedding of the Zod `DocumentExtractionSchema` payload: every scalar is
optional and nullable; the two map fields are arrays of string key/value
pairs. -/
structure DocumentExtraction where
  title : JsVal String
  date : JsVal String
  court : JsVal String
  caseNumber : JsVal String
  summary : JsVal String
  caseType : JsVal String
  area : JsVal String
  areaData : JsVal (List (String × String))
  metadata : JsVal (List (String × String))

/-- Embedding of `DocumentService.coerceString`: a string with non-blank trim
is trimmed, anything else becomes `null`. -/
def coerceString (v : JsVal String) : Option String :=
  match v with
  | .val s => if (jsTrim s).length > 0 then some (jsTrim s) else none
  | _ => none

/-- Embedding of `DocumentService.coerceDate`. A `Date` is modeled by the
trimmed source string; `jsDateOk` abstracts the JavaScript runtime's
`new Date` validity check. -/
def coerceDate (jsDateOk : String → Bool) (v : JsVal String) : Option String :=
  match v with
  | .val s =>
    let t := jsTrim s
    if t = "" then none
    else if jsDateOk t then some t else none
  | _ => none

/-- Key/value pair list as the JSON value it was parsed from. -/
def pairsToJson (prs : List (String × String)) : Json :=
  .arr (prs.map (fun kv => .obj [("key", .str kv.1), ("value", .str kv.2)]))

/-- Option-to-JSON helper for building the raw payload echo. -/
def optStrToJson : Option String → Json
  | some s => .str s
  | none => .null

/-- Option-to-JSON helper for the map fields of the payload echo. -/
def optJsonToJson : Option Json → Json
  | some j => j
  | none => .null

/-- Embedding of `DocumentService.mapAiExtraction`. -/
def mapAiExtraction (jsDateOk : String → Bool) (e : DocumentExtraction) : AiExtractionResult :=
  let title := coerceString e.title
  let court := coerceString e.court
  let caseNumber := coerceString e.caseNumber
  let summary := coerceString e.summary
  let caseType := coerceString e.caseType
  let area := coerceString e.area
  let date := coerceDate jsDateOk e.date
  let rawDate : Option String :=
    match e.date with
    | .val s => if (jsTrim s).length > 0 then some (jsTrim s) else none
    | _ => none
  let areaData : Option Json :=
    match e.areaData with
    | .val prs => some (pairsToJson prs)
    | _ => none
  let metadata : Option Json :=
    match e.metadata with
    | .val prs => some (pairsToJson prs)
    | _ => none
  { fields :=
      { title := title, date := date, court := court, caseNumber := caseNumber,
        summary := summary, caseType := caseType, area := area,
        areaData := areaData, metadata := metadata },
    json :=
      [("title", optStrToJson title), ("date", optStrToJson rawDate),
       ("court", optStrToJson court), ("caseNumber", optStrToJson caseNumber),
       ("summary", optStrToJson summary), ("caseType", optStrToJson caseType),
       ("area", optStrToJson area), ("areaData", optJsonToJson areaData),
       ("metadata", optJsonToJson metadata)] }

/-- Environment of one `enrichMetadataFromText` call: the configured API key
(`OPENAI_API_KEY`), the outcome of the structured-parse call to the external
service (an exception, an empty parse, or a payload), and the runtime's date
validity check. -/
structure EnrichEnv where
  apiKey : Option String
  parseOutcome : Except String (Option DocumentExtraction)
  jsDateOk : String → Bool

/-- Embedding of `DocumentService.enrichMetadataFromText`: a missing or empty
API key skips enrichment; a thrown API error is caught; an empty structured
payload is rejected; a parsed payload is mapped. The result is always a plain
option, never an exception. -/
def enrichMetadataFromText (env : EnrichEnv) (rawText : String) : Option AiExtractionResult :=
  match env.apiKey with
  | none => none
  | some k =>
    if k = "" then none
    else
      match env.parseOutcome with
      | .error _ => none
      | .ok none => none
      | .ok (some parsed) => some (mapAiExtraction env.jsDateOk parsed)

/-- Upload input: declared filename and MIME type (`FileUpload`). -/
structure FileUpload where
  filename : String
  mimetype : Option String

/-- Embedding of `UploadDocumentOptions`: every field optional and nullable. -/
structure UploadOptions where
  title : JsVal String
  date : JsVal String
  court : JsVal String
  caseNumber : JsVal String
  summary : JsVal String
  caseType : JsVal String
  area : JsVal String
  metadata : JsVal String
  areaData : JsVal String

/-- Record sent to `prisma.document.create` by the upload path. -/
structure UploadData where
  fileName : String
  title : Option String
  date : Option String
  court : Option String
  caseNumber : Option String
  summary : Option String
  caseType : Option String
  area : Option String
  metadata : Json
  areaData : Option Json

/-- The optional chain `aiEnrichment?.fields.<sel>` as a JavaScript value. -/
def aiScalar (ai : Option AiExtractionResult) (sel : AiFields → Option String) : JsVal String :=
  match ai with
  | none => .undef
  | some r =>
    match sel r.fields with
    | none => .null
    | some v => .val v

/-- One scalar assignment of the upload path:
`options.f ?? aiEnrichment?.fields.f ?? null`. -/
def scalarMerge (explicit : JsVal String) (aiChain : JsVal String) : Option String :=
  match explicit.coalesce (aiChain.coalesce .null) with
  | .val v => some v
  | _ => none

/-- Provenance record merged into the metadata blob by `handleUpload`. -/
def uploadProvenance (filename : String) (mimetype : Option String) (rawText : String)
    (ai : Option AiExtractionResult) : List (String × Json) :=
  [("originalFileName", .str filename),
   ("mimeType", match mimetype with | some m => .str m | none => .null),
   ("rawText", if rawText.length > 0 then .str rawText else .null),
   ("aiExtraction", match ai with | some r => .obj r.json | none => .null)]

/-- Embedding of `DocumentService.handleUpload`. The text extraction for the
detected kind and the enrichment call are the effectful collaborators of the
orchestration and are passed as function parameters; a successful run returns
the record handed to `prisma.document.create`. -/
def handleUpload (file : FileUpload) (options : UploadOptions)
    (extractText : FileKind → Except DocError String)
    (enrich : String → Option AiExtractionResult) : Except DocError UploadData := do
  let fileKind ← detectFileKind file.filename file.mimetype
  if fileKind = FileKind.unknown then
    throw (DocError.unsupportedMediaType "uploadDocument only supports PDF or HTML files.")
  let rawText ← extractText fileKind
  let aiEnrichment := if rawText.length > 0 then enrich rawText else none
  let metadataInput ← parseMetadata options.metadata
  let areaDataInput ← parseAreaData options.areaData
  let combinedMetadata := mergeMetadata metadataInput
    (uploadProvenance file.filename file.mimetype rawText aiEnrichment)
  pure
    { fileName := file.filename
      title := scalarMerge options.title (aiScalar aiEnrichment AiFields.title)
      date := scalarMerge options.date (aiScalar aiEnrichment AiFields.date)
      court := scalarMerge options.court (aiScalar aiEnrichment AiFields.court)
      caseNumber := scalarMerge options.caseNumber (aiScalar aiEnrichment AiFields.caseNumber)
      summary := scalarMerge options.summary (aiScalar aiEnrichment AiFields.summary)
      caseType := scalarMerge options.caseType (aiScalar aiEnrichment AiFields.caseType)
      area := scalarMerge options.area (aiScalar aiEnrichment AiFields.area)
      metadata := combinedMetadata
      areaData :=
        match areaDataInput with
        | some j => some j
        | none =>
          match aiEnrichment with
          | some r => r.fields.areaData
          | none => none }

/-- Embedding of `DocumentService.stringifyMetadata` parametrized by the
underlying serializer, so that the `catch`-to-`null` branch around
`JSON.stringify` is visible: `null` input stays `null`, strings pass through
unchanged, any other value is serialized with failure collapsing to `null`. -/
def stringifyMetadataWith (ser : Json → Option String) (metadata : Option Json) : Option String :=
  match metadata with
  | none => none
  | some (.str s) => some s
  | some j =>
    match ser j with
    | some out => some out
    | none => none

/-- Embedding of `DocumentService.stringifyMetadata` with the JSON model's
total serializer. -/
def stringifyMetadata (metadata : Option Json) : Option String :=
  stringifyMetadataWith (fun j => some (jsonStringify j)) metadata

/-- Value placed into the `prisma.document.update` data record: a string, a
JavaScript `null`, the sentinel `Prisma.JsonNull`, or a parsed JSON value.
Dates are carried as their source strings. -/
inductive UpdVal where
  | strV (s : String) : UpdVal
  | nullV : UpdVal
  | jsonNullV : UpdVal
  | jsonV (j : Json) : UpdVal

/-- Embedding of `UpdateDocumentOptions`: the outer option records whether the
key is present on the request object (`hasOwnProperty`), the inner `JsVal`
its value. -/
structure UpdateOptions where
  id : Nat
  fileName : Option (JsVal String)
  title : Option (JsVal String)
  court : Option (JsVal String)
  caseNumber : Option (JsVal String)
  summary : Option (JsVal String)
  caseType : Option (JsVal String)
  area : Option (JsVal String)
  date : Option (JsVal String)
  metadata : Option (JsVal String)
  areaData : Option (JsVal String)

/-- Entry contributed by one nullable scalar field of the update path:
present keys are written as `value ?? null`. -/
def scalarUpdEntry (key : String) (o : Option (JsVal String)) : List (String × UpdVal) :=
  match o with
  | none => []
  | some (.val s) => [(key, .strV s)]
  | some _ => [(key, .nullV)]

/-- Construction of the `data` record of `DocumentService.updateDocument`,
in source order, with the same thrown exceptions. -/
def buildUpdateData (o : UpdateOptions) : Except DocError (List (String × UpdVal)) := do
  let fileNameEntry ←
    match o.fileName with
    | none => pure ([] : List (String × UpdVal))
    | some v =>
      match v with
      | .val s =>
        if jsTrim s = "" then
          throw (DocError.badRequest "fileName must be provided when updating.")
        else pure [("fileName", UpdVal.strV (jsTrim s))]
      | _ => throw (DocError.badRequest "fileName must be provided when updating.")
  let mdEntry ←
    match o.metadata with
    | none => pure ([] : List (String × UpdVal))
    | some .null => pure [("metadata", UpdVal.jsonNullV)]
    | some .undef => pure []
    | some (.val s) => do
      let parsed ← parseMetadata (.val s)
      match parsed with
      | some j => pure [("metadata", UpdVal.jsonV j)]
      | none => pure []
  let adEntry ←
    match o.areaData with
    | none => pure ([] : List (String × UpdVal))
    | some .null => pure [("areaData", UpdVal.jsonNullV)]
    | some .undef => pure []
    | some (.val s) => do
      let parsed ← parseAreaData (.val s)
      match parsed with
      | some j => pure [("areaData", UpdVal.jsonV j)]
      | none => pure []
  pure (fileNameEntry
    ++ scalarUpdEntry "title" o.title
    ++ scalarUpdEntry "court" o.court
    ++ scalarUpdEntry "caseNumber" o.caseNumber
    ++ scalarUpdEntry "summary" o.summary
    ++ scalarUpdEntry "caseType" o.caseType
    ++ scalarUpdEntry "area" o.area
    ++ scalarUpdEntry "date" o.date
    ++ mdEntry ++ adEntry)

/-- Persisted document row (`DocumentRecord` business fields). -/
structure DocRecord where
  fileName : String
  title : Option String
  court : Option String
  caseNumber : Option String
  summary : Option String
  caseType : Option String
  area : Option String
  date : Option String
  metadata : Option Json
  areaData : Option Json

/-- Application of one update entry to a stored row. -/
def applyUpdEntry (doc : DocRecord) (entry : String × UpdVal) : DocRecord :=
  let strOpt : UpdVal → Option String := fun v =>
    match v with
    | .strV s => some s
    | _ => none
  let jsonOpt : UpdVal → Option Json := fun v =>
    match v with
    | .jsonV j => some j
    | _ => none
  if entry.1 = "fileName" then
    { doc with fileName := match entry.2 with | .strV s => s | _ => doc.fileName }
  else if entry.1 = "title" then { doc with title := strOpt entry.2 }
  else if entry.1 = "court" then { doc with court := strOpt entry.2 }
  else if entry.1 = "caseNumber" then { doc with caseNumber := strOpt entry.2 }
  else if entry.1 = "summary" then { doc with summary := strOpt entry.2 }
  else if entry.1 = "caseType" then { doc with caseType := strOpt entry.2 }
  else if entry.1 = "area" then { doc with area := strOpt entry.2 }
  else if entry.1 = "date" then { doc with date := strOpt entry.2 }
  else if entry.1 = "metadata" then { doc with metadata := jsonOpt entry.2 }
  else if entry.1 = "areaData" then { doc with areaData := jsonOpt entry.2 }
  else doc

/-- Application of the whole update data record. -/
def applyUpdateData (doc : DocRecord) (data : List (String × UpdVal)) : DocRecord :=
  data.foldl applyUpdEntry doc

/-- Lookup of a row by id in the store model. -/
def findDoc : List (Nat × DocRecord) → Nat → Option DocRecord
  | [], _ => none
  | (i, d) :: rest, id => if i = id then some d else findDoc rest id

/-- Replacement of a row by id in the store model. -/
def storeDoc : List (Nat × DocRecord) → Nat → DocRecord → List (Nat × DocRecord)
  | [], _, _ => []
  | (i, d) :: rest, id, nd => if i = id then (i, nd) :: rest else (i, d) :: storeDoc rest id nd

/-- Embedding of `DocumentService.updateDocument` over a list-backed store:
the result of the call together with the store after it. A thrown exception
leaves the store untouched; an unknown id maps the persistence signal to
`NotFoundException`. -/
def updateDocument (db : List (Nat × DocRecord)) (o : UpdateOptions) :
    Except DocError DocRecord × List (Nat × DocRecord) :=
  match buildUpdateData o with
  | .error e => (.error e, db)
  | .ok data =>
    if data.length = 0 then
      (.error (.badRequest "At least one field must be provided to update."), db)
    else
      match findDoc db o.id with
      | none => (.error (.notFound ("Document with id " ++ toString o.id ++ " was not found.")), db)
      | some doc =>
        let updated := applyUpdateData doc data
        (.ok updated, storeDoc db o.id updated)

/-- Modelled from the spec: per-value coercion used by the Metadata
Normalizer, whose service-side implementation (`parseDocumentMetadata`) is
not among the provided sources — "attempting, per value, numeric/boolean/
`null` coercion of the string before falling back to the raw string". -/
def coerceLegacyValue (s : String) : Json :=
  if s = "null" then Json.null
  else if s = "true" then Json.bool true
  else if s = "false" then Json.bool false
  else
    match jsonParse s with
    | some (Json.num m e) => Json.num m e
    | _ => Json.str s

/-- Is this JSON value a legacy `\x7bkey, value\x7d` string pair? -/
def legacyPairOf : Json → Option (String × String)
  | .obj [("key", .str k), ("value", .str v)] => some (k, v)
  | _ => none

/-- Are all these JSON values legacy pairs? -/
def legacyPairsOf : List Json → Option (List (String × String))
  | [] => some []
  | x :: rest =>
    match legacyPairOf x, legacyPairsOf rest with
    | some p, some ps => some (p :: ps)
    | _, _ => none

/-- Modelled from the spec: one field step of the Metadata Normalizer — "if a
field's stored value is an array of such pairs, convert it to an object by
folding each pair into a key …; if the field is already object-shaped, no
change". Returns the (possibly converted) value and whether it changed. -/
def normalizeLegacyField (j : Option Json) : Option Json × Bool :=
  match j with
  | some (.arr xs) =>
    match legacyPairsOf xs with
    | some prs =>
      (some (.obj (prs.foldl (fun acc kv => setKey acc kv.1 (coerceLegacyValue kv.2)) [])), true)
    | none => (j, false)
  | _ => (j, false)

/-- Per-record outcome of the Normalizer (`MetadataChangeReport`). -/
structure MetadataChangeReport where
  documentId : Nat
  hasChanges : Bool
  metadataAfter : Option Json
  areaDataAfter : Option Json

/-- Modelled from the spec: the single-record entry point of the Metadata
Normalizer (`DocumentService.parseDocumentMetadata`, called by the
metadata-parser script but not itself among the provided sources). Returns
the change report and the persisted row, `none` when nothing is persisted:
"in dry-run mode no persistence call is made"; "records with no detected
change are skipped for persistence regardless of mode". -/
def parseDocumentMetadata (doc : Nat × DocRecord) (dryRun : Bool) :
    MetadataChangeReport × Option DocRecord :=
  let mdStep := normalizeLegacyField doc.2.metadata
  let adStep := normalizeLegacyField doc.2.areaData
  let has := mdStep.2 || adStep.2
  ({ documentId := doc.1, hasChanges := has,
     metadataAfter := mdStep.1, areaDataAfter := adStep.1 },
   if has && !dryRun then some { doc.2 with metadata := mdStep.1, areaData := adStep.1 }
   else none)

/-- Is this stored field in canonical (object or absent) form, as opposed to
the legacy pairs encoding? -/
def isCanonicalField : Option Json → Bool
  | none => true
  | some (.obj _) => true
  | _ => false

/-- Classification rule as worded by the specification: lower-case the
inputs; `pdf` when the MIME type contains "pdf" or the extension is `.pdf`;
`html` when the MIME type contains "html" or the extension is `.html` or
`.htm`; otherwise `unknown`. Stated separately from `detectFileKind` so the
two can be compared. -/
def classifySpec (filename : String) (mimetype : Option String) : FileKind :=
  let mime := toLowerStr (mimetype.getD "")
  let ext := toLowerStr (extname filename)
  if containsSub mime "pdf" || ext = ".pdf" then .pdf
  else if containsSub mime "html" || ext = ".html" || ext = ".htm" then .html
  else .unknown

/-- Amended scalar-precedence rule of the upload path: the explicit caller
value wins only when it was supplied non-null; a field supplied as `null`
falls through to the AI-derived value exactly like an omitted field. -/
def precedenceAmended (explicit : JsVal String) (aiVal : Option String) : Option String :=
  match explicit with
  | .val v => some v
  | _ => aiVal

/-- The enrichment outcome of an upload run, expressed over the inputs: the
enrichment called on the extracted text when classification and extraction
succeed and the text is non-empty. -/
def uploadEnrichment (file : FileUpload) (extractText : FileKind → Except DocError String)
    (enrich : String → Option AiExtractionResult) : Option AiExtractionResult :=
  match detectFileKind file.filename file.mimetype with
  | .ok k =>
    match extractText k with
    | .ok raw => if raw.length > 0 then enrich raw else none
    | .error _ => none
  | .error _ => none

/-- First-match association lookup among object members. -/
def lookupKey : List (String × Json) → String → Option Json
  | [], _ => none
  | (k0, v0) :: rest, k => if k0 = k then some v0 else lookupKey rest k

/-- Option fallback: the left value when present, else the right one. -/
def optOr {α : Type} : Option α → Option α → Option α
  | some a, _ => some a
  | none, b => b

/-- Member list of a JSON object value (empty for non-objects). -/
def objMembers : Json → List (String × Json)
  | .obj kvs => kvs
  | _ => []

/-- Upload options with every field omitted. -/
def emptyUploadOptions : UploadOptions :=
  { title := .undef, date := .undef, court := .undef, caseNumber := .undef,
    summary := .undef, caseType := .undef, area := .undef,
    metadata := .undef, areaData := .undef }

/-- Update options touching no field at all, for document id 7. -/
def emptyUpdateOptions : UpdateOptions :=
  { id := 7, fileName := none, title := none, court := none, caseNumber := none,
    summary := none, caseType := none, area := none, date := none,
    metadata := none, areaData := none }

/-- Concrete stored row used by witnesses. -/
def sampleDoc : DocRecord :=
  { fileName := "brief.pdf", title := some "t", court := none, caseNumber := none,
    summary := none, caseType := none, area := none, date := none,
    metadata := some (.obj [("a", .num 1 0)]), areaData := none }

/-- Extraction payload whose only determined field is a title of `Y`. -/
def cxExtraction : DocumentExtraction :=
  { title := .val "Y", date := .undef, court := .undef, caseNumber := .undef,
    summary := .undef, caseType := .undef, area := .undef,
    areaData := .undef, metadata := .undef }

/-- Enrichment environment that returns `cxExtraction`. -/
def cxEnv : EnrichEnv :=
  { apiKey := some "k", parseOutcome := .ok (some cxExtraction), jsDateOk := fun _ => false }

/-- Upload whose only supplied scalar option is `title` supplied as `null`. -/
def cxOpts : UploadOptions :=
  { emptyUploadOptions with title := .null }

/-- Concrete PDF upload used by the precedence counterexample. -/
def cxFile : FileUpload := { filename := "a.pdf", mimetype := some "application/pdf" }

/-- Default record used to name the result of a successful concrete run. -/
def uploadDataDefault : UploadData :=
  { fileName := "", title := none, date := none, court := none, caseNumber := none,
    summary := none, caseType := none, area := none, metadata := Json.null, areaData := none }

/-- Concrete upload run for the amended-precedence witness. -/
def wFile : FileUpload := { filename := "b.pdf", mimetype := none }

/-- Extraction function of the witness run. -/
def wExtract : FileKind → Except DocError String := fun _ => .ok "witness body"

/-- Enrichment function of the witness run. -/
def wEnrich : String → Option AiExtractionResult := fun t => enrichMetadataFromText cxEnv t

/-- Options of the witness run: an explicit title alongside the AI one. -/
def wOpts : UploadOptions := { emptyUploadOptions with title := .val "X", court := .null }

/-- Result record of the witness run. -/
def wRes : UploadData :=
  (handleUpload wFile wOpts wExtract wEnrich).toOption.getD uploadDataDefault

/-- Boundary condition for the number parser: the remaining input must not
begin with a character that could extend a numeric literal. -/
def noNumExt : List Char → Prop
  | [] => True
  | c :: _ => isDigitChar c = false ∧ c ≠ '.' ∧ c ≠ 'e' ∧ c ≠ 'E'

/-- Characters that may legally start a serialized JSON value never collide
with the parser's separators or whitespace. -/
def goodHead (c : Char) : Prop :=
  isWsChar c = false ∧ c ≠ ']' ∧ c ≠ rbrace ∧ c ≠ ','

/-! Theorems. -/

theorem jsTrim_of_empty : jsTrim "" = "" := rfl

theorem mime_lower_getD (mt : Option String) :
    (mt.map toLowerStr).getD "" = toLowerStr (mt.getD "") := by
  cases mt <;> rfl

/-- C5: an update request whose field set after presence checks is empty is
rejected with a usage error before any persistence call, and the store is
unchanged. -/
theorem updateDocument_zero_fields_rejected
    (db : List (Nat × DocRecord)) (o : UpdateOptions)
    (h : buildUpdateData o = .ok []) :
    updateDocument db o =
      (.error (.badRequest "At least one field must be provided to update."), db) := by
  simp [updateDocument, h]

/-- Witness for C5: `updateDocument` with only an id, over a store holding a
row with that id, errors and leaves the store unchanged. -/
theorem updateDocument_zero_fields_rejected_witness :
    updateDocument [(7, sampleDoc)] emptyUpdateOptions =
      (.error (.badRequest "At least one field must be provided to update."), [(7, sampleDoc)]) :=
  updateDocument_zero_fields_rejected [(7, sampleDoc)] emptyUpdateOptions (by rfl)

/-- C7: an upload whose classification is `unknown` fails with the
unsupported-media error for every possible stream extraction and enrichment
behavior (so before any stream is read), and no record is produced. -/
theorem handleUpload_unknown_rejected
    (file : FileUpload) (options : UploadOptions)
    (extractText : FileKind → Except DocError String)
    (enrich : String → Option AiExtractionResult)
    (h : detectFileKind file.filename file.mimetype = .ok .unknown) :
    handleUpload file options extractText enrich =
      .error (.unsupportedMediaType "uploadDocument only supports PDF or HTML files.") := by
  unfold handleUpload
  rw [h]
  rfl

/-- Witness for C7: `notes.txt` with MIME type `text/plain`. -/
theorem handleUpload_unknown_rejected_witness :
    handleUpload { filename := "notes.txt", mimetype := some "text/plain" }
      emptyUploadOptions (fun _ => .ok "body") (fun _ => none) =
      .error (.unsupportedMediaType "uploadDocument only supports PDF or HTML files.") :=
  handleUpload_unknown_rejected _ _ _ _ (by rfl)

/-- C3: for a non-blank filename `detectFileKind` returns exactly the
classification stated by the specification rules, and for a blank filename it
throws the usage error instead of returning `unknown`. -/
theorem ok_kind_if_chain (c1 c2 : Bool) :
    (if c1 then (Except.ok FileKind.pdf : Except DocError FileKind)
     else if c2 then .ok .html else .ok .unknown)
      = .ok (if c1 then FileKind.pdf else if c2 then .html else .unknown) := by
  cases c1 <;> cases c2 <;> rfl

theorem detectFileKind_follows_spec (filename : String) (mimetype : Option String) :
    (jsTrim filename ≠ "" →
      detectFileKind filename mimetype = .ok (classifySpec filename mimetype)) ∧
    (jsTrim filename = "" →
      detectFileKind filename mimetype =
        .error (.badRequest "Filename must be provided to detect file type.")) := by
  constructor
  · intro h
    have hne : filename ≠ "" := by
      intro he
      rw [he] at h
      exact h jsTrim_of_empty
    simp only [detectFileKind, classifySpec, mime_lower_getD, hne, h]
    exact ok_kind_if_chain _ _
  · intro h
    unfold detectFileKind
    simp [h]

/-- Witness for C3: `brief.pdf` with no MIME type classifies as the
specification rules dictate. -/
theorem detectFileKind_follows_spec_witness :
    detectFileKind "brief.pdf" none = .ok (classifySpec "brief.pdf" none) :=
  (detectFileKind_follows_spec "brief.pdf" none).1 (by decide)

/-- C10: the pdf test is evaluated first, so any non-blank input satisfying
both the pdf rule and the html rule classifies as `pdf`, never `html`. -/
theorem detectFileKind_pdf_first (filename : String) (mimetype : Option String)
    (h : jsTrim filename ≠ "")
    (hpdf : (containsSub (toLowerStr (mimetype.getD "")) "pdf"
        || toLowerStr (extname filename) = ".pdf") = true)
    (hhtml : (containsSub (toLowerStr (mimetype.getD "")) "html"
        || toLowerStr (extname filename) = ".html"
        || toLowerStr (extname filename) = ".htm") = true) :
    detectFileKind filename mimetype = .ok .pdf := by
  have hne : filename ≠ "" := by
    intro he
    rw [he] at h
    exact h jsTrim_of_empty
  unfold detectFileKind
  rw [mime_lower_getD]
  simp [hne, h, hpdf]

/-- Witness for C10: a filename ending in `.html` whose MIME type contains
"pdf" satisfies both rules and classifies as `pdf`. -/
theorem detectFileKind_pdf_first_witness :
    detectFileKind "x.html" (some "application/pdf") = .ok .pdf :=
  detectFileKind_pdf_first "x.html" (some "application/pdf") (by decide) (by decide) (by decide)

theorem except_bind_ok {ε α β : Type} (a : α) (f : α → Except ε β) :
    ((Except.ok a : Except ε α) >>= f) = f a := rfl

theorem except_bind_err {ε α β : Type} (e : ε) (f : α → Except ε β) :
    ((Except.error e : Except ε α) >>= f) = .error e := rfl

theorem except_throw {ε α : Type} (e : ε) : (throw e : Except ε α) = .error e := rfl

/-- C2: the Enrichment Client never propagates an error — a missing or empty
API credential, a thrown API/transport error, and an empty structured payload
each produce `none` — and the success of an upload run does not depend on the
enrichment function at all. -/
theorem enrichment_soft_fail :
    (∀ (env : EnrichEnv) (rawText : String),
      env.apiKey = none ∨ env.apiKey = some "" → enrichMetadataFromText env rawText = none) ∧
    (∀ (env : EnrichEnv) (rawText msg : String),
      env.parseOutcome = .error msg → enrichMetadataFromText env rawText = none) ∧
    (∀ (env : EnrichEnv) (rawText : String),
      env.parseOutcome = .ok none → enrichMetadataFromText env rawText = none) ∧
    (∀ (file : FileUpload) (options : UploadOptions)
      (extractText : FileKind → Except DocError String)
      (enr1 enr2 : String → Option AiExtractionResult),
      (handleUpload file options extractText enr1).isOk =
        (handleUpload file options extractText enr2).isOk) := by
  refine ⟨?_, ?_, ?_, ?_⟩
  · rintro env raw (hk | hk) <;> simp [enrichMetadataFromText, hk]
  · intro env raw msg hp
    cases hk : env.apiKey with
    | none => simp [enrichMetadataFromText, hk]
    | some k => simp [enrichMetadataFromText, hk, hp]
  · intro env raw hp
    cases hk : env.apiKey with
    | none => simp [enrichMetadataFromText, hk]
    | some k => simp [enrichMetadataFromText, hk, hp]
  · intro file options extractText enr1 enr2
    unfold handleUpload
    cases hk : detectFileKind file.filename file.mimetype with
    | error e => simp [except_bind_err]
    | ok k =>
      by_cases hu : k = FileKind.unknown
      · subst hu
        simp [except_bind_ok, except_throw, except_bind_err]
      · simp only [except_bind_ok, hu, if_false, pure_bind]
        cases hext : extractText k with
        | error e => simp [except_bind_err]
        | ok raw =>
          simp only [except_bind_ok]
          cases hm : parseMetadata options.metadata with
          | error e => simp [except_bind_err]
          | ok mi =>
            simp only [except_bind_ok]
            cases ha : parseAreaData options.areaData with
            | error e => simp [except_bind_err]
            | ok ai => rfl

/-- Witness for C2: a missing credential yields `none`, and a run with no
enrichment succeeds exactly when the same run with a successful enrichment
does. -/
theorem enrichment_soft_fail_witness :
    enrichMetadataFromText
        { apiKey := none, parseOutcome := .ok none, jsDateOk := fun _ => false } "text" = none ∧
    (handleUpload cxFile emptyUploadOptions (fun _ => .ok "body") (fun _ => none)).isOk =
      (handleUpload cxFile emptyUploadOptions (fun _ => .ok "body")
          (enrichMetadataFromText cxEnv)).isOk :=
  ⟨enrichment_soft_fail.1 _ "text" (Or.inl rfl), enrichment_soft_fail.2.2.2 _ _ _ _ _⟩

theorem scalarMerge_eq_precedence (e : JsVal String) (ai : Option AiExtractionResult)
    (sel : AiFields → Option String) :
    scalarMerge e (aiScalar ai sel) = precedenceAmended e (ai.bind (fun r => sel r.fields)) := by
  cases e with
  | val v => rfl
  | undef =>
    cases ai with
    | none => rfl
    | some r =>
      cases hsel : sel r.fields <;>
        simp [scalarMerge, aiScalar, precedenceAmended, JsVal.coalesce, hsel]
  | null =>
    cases ai with
    | none => rfl
    | some r =>
      cases hsel : sel r.fields <;>
        simp [scalarMerge, aiScalar, precedenceAmended, JsVal.coalesce, hsel]

/-- C1 counterexample: in the upload-create path, supplying `title` as `null`
while the AI derives the title `Y` persists `Y`, not the supplied `null`. -/
theorem upload_null_scalar_not_preserved :
    (handleUpload cxFile cxOpts (fun _ => .ok "body") (enrichMetadataFromText cxEnv)).map
        UploadData.title = .ok (some "Y") ∧
    cxOpts.title = JsVal.null ∧ some "Y" ≠ (none : Option String) :=
  ⟨rfl, rfl, by simp⟩

/-- C1 (amended): in the upload-create path each scalar field persists the
explicit caller value when it was supplied non-null; a field supplied as
`null` or omitted falls through to the AI-derived value when one exists, else
`null`. -/
theorem upload_scalar_precedence
    (file : FileUpload) (options : UploadOptions)
    (extractText : FileKind → Except DocError String)
    (enrich : String → Option AiExtractionResult) (d : UploadData)
    (h : handleUpload file options extractText enrich = .ok d) :
    d.title = precedenceAmended options.title
        ((uploadEnrichment file extractText enrich).bind (fun r => r.fields.title)) ∧
    d.date = precedenceAmended options.date
        ((uploadEnrichment file extractText enrich).bind (fun r => r.fields.date)) ∧
    d.court = precedenceAmended options.court
        ((uploadEnrichment file extractText enrich).bind (fun r => r.fields.court)) ∧
    d.caseNumber = precedenceAmended options.caseNumber
        ((uploadEnrichment file extractText enrich).bind (fun r => r.fields.caseNumber)) ∧
    d.summary = precedenceAmended options.summary
        ((uploadEnrichment file extractText enrich).bind (fun r => r.fields.summary)) ∧
    d.caseType = precedenceAmended options.caseType
        ((uploadEnrichment file extractText enrich).bind (fun r => r.fields.caseType)) ∧
    d.area = precedenceAmended options.area
        ((uploadEnrichment file extractText enrich).bind (fun r => r.fields.area)) := by
  unfold handleUpload at h
  cases hk : detectFileKind file.filename file.mimetype with
  | error e =>
    simp only [hk, except_bind_err] at h
    exact absurd h (by simp)
  | ok k =>
    simp only [hk, except_bind_ok] at h
    by_cases hu : k = FileKind.unknown
    · rw [if_pos hu, except_throw, except_bind_err] at h
      exact absurd h (by simp)
    · rw [if_neg hu, pure_bind] at h
      cases hext : extractText k with
      | error e =>
        simp only [hext, except_bind_err] at h
        exact absurd h (by simp)
      | ok raw =>
        simp only [hext, except_bind_ok] at h
        cases hm : parseMetadata options.metadata with
        | error e =>
          simp only [hm, except_bind_err] at h
          exact absurd h (by simp)
        | ok mi =>
          simp only [hm, except_bind_ok] at h
          cases ha : parseAreaData options.areaData with
          | error e =>
            simp only [ha, except_bind_err] at h
            exact absurd h (by simp)
          | ok ai =>
            simp only [ha, except_bind_ok] at h
            have hd := (Except.ok.injEq _ _).mp h.symm
            have hai : uploadEnrichment file extractText enrich =
                (if raw.length > 0 then enrich raw else none) := by
              simp only [uploadEnrichment, hk, hext]
            subst hd
            rw [← hai]
            exact ⟨scalarMerge_eq_precedence _ _ _, scalarMerge_eq_precedence _ _ _,
              scalarMerge_eq_precedence _ _ _, scalarMerge_eq_precedence _ _ _,
              scalarMerge_eq_precedence _ _ _, scalarMerge_eq_precedence _ _ _,
              scalarMerge_eq_precedence _ _ _⟩

/-- Witness for C1's amended theorem: a concrete run with an explicit title
and a court supplied as `null`. -/
theorem upload_scalar_precedence_witness :
    wRes.title = precedenceAmended wOpts.title
        ((uploadEnrichment wFile wExtract wEnrich).bind (fun r => r.fields.title)) ∧
    wRes.court = precedenceAmended wOpts.court
        ((uploadEnrichment wFile wExtract wEnrich).bind (fun r => r.fields.court)) :=
  ⟨(upload_scalar_precedence wFile wOpts wExtract wEnrich wRes (by rfl)).1,
   (upload_scalar_precedence wFile wOpts wExtract wEnrich wRes (by rfl)).2.2.1⟩

theorem lookupKey_setKey (base : List (String × Json)) (k : String) (v : Json) (q : String) :
    lookupKey (setKey base k v) q = if k = q then some v else lookupKey base q := by
  induction base with
  | nil =>
    simp only [setKey, lookupKey]
  | cons p rest ih =>
    obtain ⟨k0, v0⟩ := p
    simp only [setKey]
    by_cases h0 : k0 = k
    · subst h0
      by_cases hq : k0 = q <;> simp [lookupKey, hq]
    · by_cases hq : k0 = q
      · subst hq
        have hks : ¬k = k0 := fun hh => h0 hh.symm
        simp [lookupKey, h0, hks]
      · simp [lookupKey, h0, hq, ih]

theorem lookupKey_eq_none_of_not_mem (l : List (String × Json)) (k : String)
    (h : k ∉ l.map Prod.fst) : lookupKey l k = none := by
  induction l with
  | nil => rfl
  | cons p rest ih =>
    simp only [List.map_cons, List.mem_cons] at h
    push_neg at h
    have h1 : ¬p.1 = k := fun hh => h.1 hh.symm
    simp [lookupKey, h1, ih h.2]

theorem lookupKey_spreadList :
    ∀ (add base : List (String × Json)) (k : String),
      (add.map Prod.fst).Nodup →
      lookupKey (spreadList base add) k = optOr (lookupKey add k) (lookupKey base k) := by
  intro add
  induction add with
  | nil =>
    intro base k _
    simp [spreadList, lookupKey, optOr]
  | cons p rest ih =>
    intro base k hn
    obtain ⟨k0, v0⟩ := p
    simp only [List.map_cons, List.nodup_cons] at hn
    have hstep : spreadList base ((k0, v0) :: rest) = spreadList (setKey base k0 v0) rest := rfl
    rw [hstep, ih (setKey base k0 v0) k hn.2, lookupKey_setKey]
    by_cases hq : k0 = k
    · subst hq
      rw [lookupKey_eq_none_of_not_mem rest k0 hn.1]
      simp [lookupKey, optOr]
    · simp [lookupKey, hq, optOr]

/-- C6: shape of the merged metadata blob. When the caller metadata is a JSON
object, every key resolves to the provenance value when provenance carries
the key (provenance overwrites) and to the caller value otherwise; a
non-object caller value is wrapped under `value` before the spread; an absent
caller value leaves the provenance record alone. -/
theorem mergeMetadata_cases (additional : List (String × Json))
    (hn : (additional.map Prod.fst).Nodup) :
    (∀ kvs k, lookupKey (objMembers (mergeMetadata (some (.obj kvs)) additional)) k
        = optOr (lookupKey additional k) (lookupKey kvs k)) ∧
    (∀ j, isObjJson j = false →
        mergeMetadata (some j) additional = .obj (spreadList [("value", j)] additional) ∧
        ∀ k, lookupKey (objMembers (mergeMetadata (some j) additional)) k
            = optOr (lookupKey additional k) (lookupKey [("value", j)] k)) ∧
    mergeMetadata none additional = .obj additional := by
  refine ⟨?_, ?_, rfl⟩
  · intro kvs k
    simp only [mergeMetadata, objMembers]
    exact lookupKey_spreadList additional kvs k hn
  · intro j hj
    cases j with
    | obj kvs => exact absurd hj (by simp [isObjJson])
    | null =>
      exact ⟨rfl, fun k => lookupKey_spreadList additional [("value", .null)] k hn⟩
    | bool b =>
      exact ⟨rfl, fun k => lookupKey_spreadList additional [("value", .bool b)] k hn⟩
    | num m e =>
      exact ⟨rfl, fun k => lookupKey_spreadList additional [("value", .num m e)] k hn⟩
    | str s =>
      exact ⟨rfl, fun k => lookupKey_spreadList additional [("value", .str s)] k hn⟩
    | arr xs =>
      exact ⟨rfl, fun k => lookupKey_spreadList additional [("value", .arr xs)] k hn⟩

/-- Witness for C6: over the concrete provenance record of an upload, a
caller key matching `rawText` is overwritten by provenance. -/
theorem mergeMetadata_cases_witness :
    lookupKey (objMembers (mergeMetadata
        (some (.obj [("rawText", .str "keep"), ("x", .num 1 0)]))
        (uploadProvenance "f.pdf" none "text" none))) "rawText"
      = optOr (lookupKey (uploadProvenance "f.pdf" none "text" none) "rawText")
          (lookupKey [("rawText", .str "keep"), ("x", .num 1 0)] "rawText") :=
  (mergeMetadata_cases (uploadProvenance "f.pdf" none "text" none) (by decide)).1
    [("rawText", .str "keep"), ("x", .num 1 0)] "rawText"

theorem normalizeLegacyField_canonical (j : Option Json) (h : isCanonicalField j = true) :
    normalizeLegacyField j = (j, false) := by
  match j with
  | none => rfl
  | some .null => rfl
  | some (.bool _) => rfl
  | some (.num _ _) => rfl
  | some (.str _) => rfl
  | some (.obj _) => rfl
  | some (.arr _) => simp [isCanonicalField] at h

theorem normalizeLegacyField_idem (j : Option Json) :
    normalizeLegacyField (normalizeLegacyField j).1 = ((normalizeLegacyField j).1, false) := by
  match j with
  | none => rfl
  | some .null => rfl
  | some (.bool _) => rfl
  | some (.num _ _) => rfl
  | some (.str _) => rfl
  | some (.obj _) => rfl
  | some (.arr xs) =>
    cases hp : legacyPairsOf xs with
    | some prs => simp [normalizeLegacyField, hp]
    | none => simp [normalizeLegacyField, hp]

/-- C9: the single-record Metadata Normalizer reports no change and performs
no persistence call on a record whose two fields are already canonical; in
particular any record it has itself persisted normalizes to "no change" on a
second run. -/
theorem normalizer_idempotent :
    (∀ (doc : Nat × DocRecord) (dryRun : Bool),
      isCanonicalField doc.2.metadata = true → isCanonicalField doc.2.areaData = true →
      (parseDocumentMetadata doc dryRun).1.hasChanges = false ∧
        (parseDocumentMetadata doc dryRun).2 = none) ∧
    (∀ (doc : Nat × DocRecord) (d1 : Bool) (doc2 : DocRecord),
      (parseDocumentMetadata doc d1).2 = some doc2 →
      ∀ (d2 : Bool),
        (parseDocumentMetadata (doc.1, doc2) d2).1.hasChanges = false ∧
          (parseDocumentMetadata (doc.1, doc2) d2).2 = none) := by
  constructor
  · intro doc dryRun hm ha
    have h1 := normalizeLegacyField_canonical doc.2.metadata hm
    have h2 := normalizeLegacyField_canonical doc.2.areaData ha
    simp [parseDocumentMetadata, h1, h2]
  · intro doc d1 doc2 h d2
    unfold parseDocumentMetadata at h
    dsimp only at h
    by_cases hc : (((normalizeLegacyField doc.2.metadata).2 ||
        (normalizeLegacyField doc.2.areaData).2) && !d1) = true
    · rw [if_pos hc] at h
      have hd := (Option.some.injEq _ _).mp h.symm
      subst hd
      simp [parseDocumentMetadata, normalizeLegacyField_idem]
    · rw [if_neg hc] at h
      exact absurd h (by simp)

/-- Witness for C9: a record with an object-shaped metadata field and an
absent areaData field reports no change and persists nothing. -/
theorem normalizer_idempotent_witness :
    (parseDocumentMetadata (3, sampleDoc) true).1.hasChanges = false ∧
      (parseDocumentMetadata (3, sampleDoc) true).2 = none :=
  normalizer_idempotent.1 (3, sampleDoc) true (by rfl) (by rfl)

theorem all_ws_of_jsTrim_empty (s : String) (h : jsTrim s = "") :
    ∀ c ∈ s.data, isWsChar c = true := by
  have hl : ((s.data.dropWhile isWsChar).reverse.dropWhile isWsChar).reverse = [] :=
    congrArg String.data h
  rw [List.reverse_eq_nil_iff] at hl
  have h3 : ∀ c ∈ (s.data.dropWhile isWsChar).reverse, isWsChar c = true := by
    rw [List.dropWhile_eq_nil_iff] at hl
    exact hl
  intro c hc
  rw [← List.takeWhile_append_dropWhile (p := isWsChar) (l := s.data)] at hc
  rcases List.mem_append.mp hc with h4 | h4
  · exact List.mem_takeWhile_imp h4
  · exact h3 c (List.mem_reverse.mpr h4)

theorem jsonParse_of_trim_empty (s : String) (h : jsTrim s = "") : jsonParse s = none := by
  have hskip : skipWs s.data = [] :=
    List.dropWhile_eq_nil_iff.mpr (all_ws_of_jsTrim_empty s h)
  unfold jsonParse
  simp [parseVal, hskip]

/-- C4 counterexample: a whitespace-only (but non-empty) `areaData` string is
truthy, reaches `JSON.parse`, and raises the data error instead of yielding
"no value". -/
theorem parseAreaData_ws_raises :
    parseAreaData (.val " ") =
      .error (.badRequest "areaData must be valid JSON when provided.") ∧
    jsTrim " " = "" :=
  ⟨rfl, rfl⟩

/-- C4 (amended): for the `metadata` field an absent, `null`, or
blank/whitespace-only input yields no value without error, while for
`areaData` only an absent, `null`, or empty input does — a whitespace-only
non-empty `areaData` string raises the data error naming `areaData` — and for
both fields any other string that is not valid JSON raises a data error
naming the field. -/
theorem codec_parse_blank_and_invalid :
    (∀ (v : JsVal String),
      (v = .undef ∨ v = .null ∨ ∃ s, v = .val s ∧ jsTrim s = "") →
      parseMetadata v = .ok none) ∧
    (parseAreaData .undef = .ok none ∧ parseAreaData .null = .ok none ∧
      parseAreaData (.val "") = .ok none) ∧
    (∀ s, s ≠ "" → jsTrim s = "" →
      parseAreaData (.val s) =
        .error (.badRequest "areaData must be valid JSON when provided.")) ∧
    (∀ label s, s ≠ "" → jsonParse s = none →
      parseJsonField label (.val s) =
        .error (.badRequest (label ++ " must be valid JSON when provided."))) := by
  refine ⟨?_, ⟨rfl, rfl, rfl⟩, ?_, ?_⟩
  · rintro v (rfl | rfl | ⟨s, rfl, hs⟩)
    · rfl
    · rfl
    · simp [parseMetadata, hs]
  · intro s hne htrim
    have hj := jsonParse_of_trim_empty s htrim
    simp [parseAreaData, parseJsonField, hne, hj]
  · intro label s hne hj
    simp [parseJsonField, hne, hj]

/-- Witness for C4's amended theorem: a whitespace-only metadata string
yields no value, and a non-JSON metadata string raises the error naming the
field. -/
theorem codec_parse_blank_and_invalid_witness :
    parseMetadata (.val "   ") = .ok none ∧
    parseJsonField "metadata" (.val "nope") =
      .error (.badRequest "metadata must be valid JSON when provided.") :=
  ⟨codec_parse_blank_and_invalid.1 _ (Or.inr (Or.inr ⟨"   ", rfl, rfl⟩)),
   codec_parse_blank_and_invalid.2.2.2 "metadata" "nope" (by decide) (by rfl)⟩

theorem digitVal_digitChar (n : Nat) (h : n < 10) : digitVal (digitChar n) = n := by
  interval_cases n <;> decide

theorem isDigitChar_digitChar (n : Nat) (h : n < 10) : isDigitChar (digitChar n) = true := by
  interval_cases n <;> decide

theorem digitChar_ne_zero (n : Nat) (h0 : n ≠ 0) (h : n < 10) : digitChar n ≠ '0' := by
  interval_cases n
  · exact absurd rfl h0
  all_goals decide

theorem digitsToNat_concat (l : List Char) (c : Char) :
    digitsToNatD (l ++ [c]) = 10 * digitsToNatD l + digitVal c := by
  simp [digitsToNatD, List.foldl_append]

theorem lt_ten_pow_succ (n : Nat) : n < 10 ^ (n + 1) := by
  calc n < 2 ^ n := Nat.lt_two_pow n
  _ ≤ 10 ^ n := Nat.pow_le_pow_left (by omega) n
  _ ≤ 10 ^ (n + 1) := Nat.pow_le_pow_right (by omega) (by omega)

theorem renderNatFuel_spec (f : Nat) : ∀ (n : Nat), 0 < f → n < 10 ^ f →
    renderNatFuel f n ≠ [] ∧ (∀ c ∈ renderNatFuel f n, isDigitChar c = true) ∧
      digitsToNatD (renderNatFuel f n) = n := by
  induction f with
  | zero => intro n h0 _; omega
  | succ f ih =>
    intro n _ hlt
    by_cases hn : n < 10
    · simp only [renderNatFuel, if_pos hn]
      refine ⟨by simp, ?_, ?_⟩
      · intro c hc
        simp only [List.mem_singleton] at hc
        subst hc
        exact isDigitChar_digitChar n hn
      · simp [digitsToNatD, digitVal_digitChar n hn]
    · simp only [renderNatFuel, if_neg hn]
      have hdiv : n / 10 < 10 ^ f := by
        rw [Nat.div_lt_iff_lt_mul (by omega)]
        calc n < 10 ^ (f + 1) := hlt
        _ = 10 ^ f * 10 := by ring
      have hf : 0 < f := by
        by_contra hf0
        have hfz : f = 0 := by omega
        subst hfz
        simp only [pow_zero, Nat.lt_one_iff] at hdiv
        omega
      obtain ⟨hne, hdig, hval⟩ := ih (n / 10) hf hdiv
      refine ⟨by simp, ?_, ?_⟩
      · intro c hc
        rcases List.mem_append.mp hc with hm | hm
        · exact hdig c hm
        · simp only [List.mem_singleton] at hm
          subst hm
          exact isDigitChar_digitChar _ (Nat.mod_lt n (by omega))
      · rw [digitsToNat_concat, hval, digitVal_digitChar _ (Nat.mod_lt n (by omega))]
        omega

theorem renderNat_spec (n : Nat) :
    renderNat n ≠ [] ∧ (∀ c ∈ renderNat n, isDigitChar c = true) ∧
      digitsToNatD (renderNat n) = n :=
  renderNatFuel_spec (n + 1) n (by omega) (lt_ten_pow_succ n)

theorem headD_append_of_ne_nil (l1 l2 : List Char) (d : Char) (h : l1 ≠ []) :
    (l1 ++ l2).headD d = l1.headD d := by
  cases l1
  · exact absurd rfl h
  · rfl

theorem renderNatFuel_headD (f : Nat) : ∀ n, 0 < f → n < 10 ^ f → n ≠ 0 →
    (renderNatFuel f n).headD 'x' ≠ '0' := by
  induction f with
  | zero => intro n h0 _ _; omega
  | succ f ih =>
    intro n _ hlt hn0
    by_cases hn : n < 10
    · simp only [renderNatFuel, if_pos hn, List.headD_cons]
      exact digitChar_ne_zero n hn0 hn
    · simp only [renderNatFuel, if_neg hn]
      have hdiv : n / 10 < 10 ^ f := by
        rw [Nat.div_lt_iff_lt_mul (by omega)]
        calc n < 10 ^ (f + 1) := hlt
        _ = 10 ^ f * 10 := by ring
      have hf : 0 < f := by
        by_contra hf0
        have hfz : f = 0 := by omega
        subst hfz
        simp only [pow_zero, Nat.lt_one_iff] at hdiv
        omega
      have hd0 : n / 10 ≠ 0 := by omega
      rw [headD_append_of_ne_nil _ _ _ (renderNatFuel_spec f (n / 10) hf hdiv).1]
      exact ih (n / 10) hf hdiv hd0

theorem renderNat_headD (n : Nat) (hn0 : n ≠ 0) : (renderNat n).headD 'x' ≠ '0' :=
  renderNatFuel_headD (n + 1) n (by omega) (lt_ten_pow_succ n) hn0

theorem renderNat_small (n : Nat) (hn : n < 10) : renderNat n = [digitChar n] := by
  simp [renderNat, renderNatFuel, hn]

theorem takeWhile_append_exact (p : Char → Bool) :
    ∀ (l rest : List Char), (∀ c ∈ l, p c = true) → (∀ c ∈ rest.take 1, p c = false) →
      (l ++ rest).takeWhile p = l ∧ (l ++ rest).dropWhile p = rest := by
  intro l
  induction l with
  | nil =>
    intro rest _ h2
    cases rest with
    | nil => simp
    | cons c cs =>
      have hc := h2 c (by simp)
      simp [List.takeWhile_cons, List.dropWhile_cons, hc]
  | cons a l ih =>
    intro rest h1 h2
    have ha : p a = true := h1 a (by simp)
    have hrec := ih rest (fun c hc => h1 c (by simp [hc])) h2
    simp [List.takeWhile_cons, List.dropWhile_cons, ha, hrec.1, hrec.2]

theorem hexVal_hexDigitChar (n : Nat) (h : n < 16) : hexVal (hexDigitChar n) = some n := by
  interval_cases n <;> decide

theorem parseStrBody_escape : ∀ (s rest : List Char),
    parseStrBody (escapeList s ++ '"' :: rest) = some (s, rest) := by
  intro s
  induction s with
  | nil =>
    intro rest
    rw [show escapeList [] = [] from rfl, List.nil_append, parseStrBody.eq_def]
    simp
  | cons c cs ih =>
    intro rest
    show parseStrBody ((escapeChar c ++ escapeList cs) ++ '"' :: rest) = _
    rw [List.append_assoc]
    by_cases h1 : c = '"'
    · subst h1
      rw [show escapeChar '"' = ['\\', '"'] from rfl, List.cons_append, List.cons_append,
        List.nil_append, parseStrBody.eq_def]
      simp [ih]
    by_cases h2 : c = '\\'
    · subst h2
      rw [show escapeChar '\\' = ['\\', '\\'] from rfl, List.cons_append, List.cons_append,
        List.nil_append, parseStrBody.eq_def]
      simp [ih]
    by_cases h3 : c = '\n'
    · subst h3
      rw [show escapeChar '\n' = ['\\', 'n'] from rfl, List.cons_append, List.cons_append,
        List.nil_append, parseStrBody.eq_def]
      simp [ih]
    by_cases h4 : c = '\t'
    · subst h4
      rw [show escapeChar '\t' = ['\\', 't'] from rfl, List.cons_append, List.cons_append,
        List.nil_append, parseStrBody.eq_def]
      simp [ih]
    by_cases h5 : c = '\r'
    · subst h5
      rw [show escapeChar '\r' = ['\\', 'r'] from rfl, List.cons_append, List.cons_append,
        List.nil_append, parseStrBody.eq_def]
      simp [ih]
    by_cases h6 : c = Char.ofNat 8
    · subst h6
      rw [show escapeChar (Char.ofNat 8) = ['\\', 'b'] from rfl, List.cons_append,
        List.cons_append, List.nil_append, parseStrBody.eq_def]
      simp [ih]
    by_cases h7 : c = Char.ofNat 12
    · subst h7
      rw [show escapeChar (Char.ofNat 12) = ['\\', 'f'] from rfl, List.cons_append,
        List.cons_append, List.nil_append, parseStrBody.eq_def]
      simp [ih]
    by_cases h8 : c.toNat < 32
    · have hesc : escapeChar c =
          ['\\', 'u', '0', '0', hexDigitChar (c.toNat / 16), hexDigitChar (c.toNat % 16)] := by
        simp [escapeChar, h1, h2, h3, h4, h5, h6, h7, h8]
      have hhi : hexVal (hexDigitChar (c.toNat / 16)) = some (c.toNat / 16) :=
        hexVal_hexDigitChar _ (by omega)
      have hlo : hexVal (hexDigitChar (c.toNat % 16)) = some (c.toNat % 16) :=
        hexVal_hexDigitChar _ (by omega)
      have harith : ((0 * 16 + 0) * 16 + c.toNat / 16) * 16 + c.toNat % 16 = c.toNat := by
        omega
      rw [hesc]
      simp only [List.cons_append, List.nil_append]
      rw [parseStrBody.eq_def]
      simp [hhi, hlo, harith, ih, show hexVal '0' = some 0 from rfl]
      rw [show c.toNat / 16 * 16 + c.toNat % 16 = c.toNat by omega, Char.ofNat_toNat]
    · have hesc : escapeChar c = [c] := by
        simp [escapeChar, h1, h2, h3, h4, h5, h6, h7, h8]
      rw [hesc]
      simp only [List.cons_append, List.nil_append]
      rw [parseStrBody.eq_def]
      simp [h1, h2, h8, ih]

theorem digit_ne (c : Char) (h : isDigitChar c = true) (d : Char) (hd : isDigitChar d = false) :
    c ≠ d := by
  intro he
  rw [he, hd] at h
  exact Bool.noConfusion h

theorem ws_char_cases (c : Char) (h : isWsChar c = true) :
    c = ' ' ∨ c = '\t' ∨ c = '\n' ∨ c = '\r' := by
  have h2 := h
  simp [isWsChar] at h2
  tauto

theorem digit_not_ws (c : Char) (h : isDigitChar c = true) : isWsChar c = false := by
  cases hw : isWsChar c
  · rfl
  · rcases ws_char_cases c hw with rfl | rfl | rfl | rfl <;> exact absurd h (by decide)

theorem renderNat_headDigit (n : Nat) :
    ∃ d ds, renderNat n = d :: ds ∧ isDigitChar d = true := by
  obtain ⟨hne, hdig, _⟩ := renderNat_spec n
  cases hr : renderNat n with
  | nil => exact absurd hr hne
  | cons d ds =>
    refine ⟨d, ds, rfl, hdig d ?_⟩
    rw [hr]
    simp

theorem noNumExt_take (rest : List Char) (h : noNumExt rest) :
    ∀ c ∈ rest.take 1, isDigitChar c = false ∧ c ≠ '.' ∧ c ≠ 'e' ∧ c ≠ 'E' := by
  cases rest with
  | nil => intro c hc; simp at hc
  | cons a l =>
    intro c hc
    simp only [List.take_succ_cons, List.take_zero, List.mem_singleton] at hc
    subst hc
    exact h

theorem numSign_other (c : Char) (r : List Char) (h : c ≠ '-') :
    numSign (c :: r) = (false, c :: r) := by
  unfold numSign
  split
  · rename_i heq
    injection heq with h1 _
    exact absurd h1 h
  · rfl

theorem expSign_other (c : Char) (r : List Char) (h1 : c ≠ '+') (h2 : c ≠ '-') :
    expSign (c :: r) = (1, c :: r) := by
  unfold expSign
  split
  · rename_i heq
    injection heq with ha _
    exact absurd ha h1
  · rename_i heq
    injection heq with ha _
    exact absurd ha h2
  · rfl

theorem numFrac_no_dot (v : Int) (cs2 : List Char) (h : ∀ c ∈ cs2.take 1, c ≠ '.') :
    numFrac v cs2 = some (v, 0, cs2) := by
  unfold numFrac
  split
  · exact absurd rfl (h '.' (by simp))
  · rfl

theorem numExp_no_exp (mant e : Int) (cs3 : List Char)
    (h : ∀ c ∈ cs3.take 1, c ≠ 'e' ∧ c ≠ 'E') :
    numExp mant e cs3 = some (.num mant e, cs3) := by
  cases cs3 with
  | nil => rfl
  | cons c r3 =>
    have hc := h c (by simp)
    unfold numExp
    simp [hc.1, hc.2]

theorem takeDrop_renderNat (n : Nat) (tail : List Char)
    (htail : ∀ c ∈ tail.take 1, isDigitChar c = false) :
    (renderNat n ++ tail).takeWhile isDigitChar = renderNat n ∧
      (renderNat n ++ tail).dropWhile isDigitChar = tail :=
  takeWhile_append_exact isDigitChar (renderNat n) tail (renderNat_spec n).2.1 htail

theorem renderNat_leadcheck (n : Nat) :
    (decide ((renderNat n).length > 1) && decide ((renderNat n).headD 'x' = '0')) = false := by
  by_cases hn : n < 10
  · rw [renderNat_small n hn]
    simp
  · have h0 : n ≠ 0 := by omega
    have hh := renderNat_headD n h0
    have hh2 : (renderNat n).head?.getD 'x' ≠ '0' := by
      cases hrn : renderNat n with
      | nil => decide
      | cons a l =>
        rw [hrn] at hh
        simpa using hh
    simp [hh2]

theorem numExp_renderInt (mant e0 e : Int) (rest : List Char) (he : e ≠ 0)
    (hrest : noNumExt rest) :
    numExp mant e0 ('e' :: (renderInt e ++ rest)) = some (.num mant (e0 + e), rest) := by
  have hdig : ∀ c ∈ rest.take 1, isDigitChar c = false :=
    fun c hc => ((noNumExt_take rest hrest) c hc).1
  unfold numExp
  simp only [decide_True, Bool.true_or, if_true]
  by_cases hneg : e < 0
  · have hri : renderInt e = '-' :: renderNat e.natAbs := by simp [renderInt, hneg]
    rw [hri, List.cons_append]
    have hsg : expSign ('-' :: (renderNat e.natAbs ++ rest)) = (-1, renderNat e.natAbs ++ rest) := rfl
    rw [hsg]
    have htd := takeDrop_renderNat e.natAbs rest hdig
    simp only [htd.1, htd.2]
    have hne := (renderNat_spec e.natAbs).1
    have hval := (renderNat_spec e.natAbs).2.2
    have harith : e0 + (-1) * (e.natAbs : Int) = e0 + e := by omega
    rw [if_neg hne, hval, harith]
  · have hri : renderInt e = renderNat e.natAbs := by simp [renderInt, hneg]
    rw [hri]
    have hsg : expSign (renderNat e.natAbs ++ rest) = (1, renderNat e.natAbs ++ rest) := by
      obtain ⟨d, ds, hr, hd⟩ := renderNat_headDigit e.natAbs
      rw [hr, List.cons_append]
      exact expSign_other d _ (digit_ne d hd '+' (by decide)) (digit_ne d hd '-' (by decide))
    rw [hsg]
    have htd := takeDrop_renderNat e.natAbs rest hdig
    simp only [htd.1, htd.2]
    have hne := (renderNat_spec e.natAbs).1
    have hval := (renderNat_spec e.natAbs).2.2
    have harith : e0 + 1 * (e.natAbs : Int) = e0 + e := by omega
    rw [if_neg hne, hval, harith]

theorem parseNumBody_core (m : Int) (tail : List Char)
    (h1 : ∀ c ∈ tail.take 1, isDigitChar c = false)
    (h2 : ∀ c ∈ tail.take 1, c ≠ '.') :
    parseNumBody (renderInt m ++ tail) = numExp m 0 tail := by
  have htd := takeDrop_renderNat m.natAbs tail h1
  have hne := (renderNat_spec m.natAbs).1
  have hval := (renderNat_spec m.natAbs).2.2
  have hlead := renderNat_leadcheck m.natAbs
  by_cases hm : m < 0
  · have hri : renderInt m = '-' :: renderNat m.natAbs := by simp [renderInt, hm]
    have hmant : -(((digitsToNatD (renderNat m.natAbs) : Nat)) : Int) = m := by
      rw [hval]
      omega
    rw [hri, List.cons_append]
    simp only [parseNumBody, numSign, htd.1, htd.2, hne, if_false, hlead,
      numFrac_no_dot _ tail h2, hmant, if_true]
    simp
  · have hsgn : numSign (renderNat m.natAbs ++ tail) = (false, renderNat m.natAbs ++ tail) := by
      obtain ⟨d, ds, hr, hd⟩ := renderNat_headDigit m.natAbs
      rw [hr, List.cons_append]
      exact numSign_other d _ (digit_ne d hd '-' (by decide))
    have hri : renderInt m = renderNat m.natAbs := by simp [renderInt, hm]
    have hmant : (((digitsToNatD (renderNat m.natAbs) : Nat)) : Int) = m := by
      rw [hval]
      omega
    rw [hri]
    simp only [parseNumBody, hsgn, htd.1, htd.2, hne, if_false, hlead,
      numFrac_no_dot _ tail h2, hmant, if_true]
    simp

theorem parseNumBody_render (m e : Int) (rest : List Char) (hrest : noNumExt rest) :
    parseNumBody (render (.num m e) ++ rest) = some (.num m e, rest) := by
  have hts := noNumExt_take rest hrest
  by_cases he : e = 0
  · subst he
    have hrender : render (.num m 0) = renderInt m := by simp [render]
    rw [hrender]
    rw [parseNumBody_core m rest (fun c hc => (hts c hc).1) (fun c hc => (hts c hc).2.1)]
    exact numExp_no_exp m 0 rest (fun c hc => ⟨(hts c hc).2.2.1, (hts c hc).2.2.2⟩)
  · have hrender : render (.num m e) ++ rest = renderInt m ++ ('e' :: (renderInt e ++ rest)) := by
      simp [render, he, List.append_assoc]
    rw [hrender]
    have h1 : ∀ c ∈ ('e' :: (renderInt e ++ rest)).take 1, isDigitChar c = false := by
      intro c hc
      simp only [List.take_succ_cons, List.take_zero, List.mem_singleton] at hc
      subst hc
      decide
    have h2 : ∀ c ∈ ('e' :: (renderInt e ++ rest)).take 1, c ≠ '.' := by
      intro c hc
      simp only [List.take_succ_cons, List.take_zero, List.mem_singleton] at hc
      subst hc
      decide
    rw [parseNumBody_core m _ h1 h2, numExp_renderInt m 0 e rest he hrest]
    simp

theorem string_mk_data (s : String) : String.mk s.data = s := rfl

theorem render_num_head (m e : Int) :
    ∃ c cs, render (.num m e) = c :: cs ∧ (c = '-' ∨ isDigitChar c = true) := by
  by_cases hm : m < 0
  · refine ⟨'-', renderNat m.natAbs ++ (if e = 0 then [] else 'e' :: renderInt e), ?_, Or.inl rfl⟩
    simp [render, renderInt, hm]
  · obtain ⟨d, ds, hr, hd⟩ := renderNat_headDigit m.natAbs
    refine ⟨d, ds ++ (if e = 0 then [] else 'e' :: renderInt e), ?_, Or.inr hd⟩
    simp [render, renderInt, hm, hr]

theorem render_head_basic (j : Json) :
    ∃ c cs, render j = c :: cs ∧ isWsChar c = false ∧ c ≠ ']' := by
  cases j with
  | null => exact ⟨'n', _, rfl, by decide, by decide⟩
  | bool b =>
    cases b
    · exact ⟨'f', _, rfl, by decide, by decide⟩
    · exact ⟨'t', _, rfl, by decide, by decide⟩
  | num m e =>
    obtain ⟨c, cs, hr, htag⟩ := render_num_head m e
    refine ⟨c, cs, hr, ?_, ?_⟩
    · rcases htag with rfl | hd
      · decide
      · exact digit_not_ws c hd
    · rcases htag with rfl | hd
      · decide
      · exact digit_ne c hd ']' (by decide)
  | str s =>
    refine ⟨'"', escapeList s.data ++ '"' :: [], ?_, by decide, by decide⟩
    simp [render]
  | arr xs =>
    refine ⟨'[', renderElems xs ++ [']'], ?_, by decide, by decide⟩
    simp [render]
  | obj kvs =>
    refine ⟨lbrace, renderMembers kvs ++ [rbrace], ?_, by decide, by decide⟩
    simp [render]

theorem renderElems_cons (x : Json) (xs : List Json) :
    ∃ tail2, renderElems (x :: xs) = render x ++ tail2 ∧
      (xs = [] → tail2 = []) ∧ (xs ≠ [] → tail2 = ',' :: renderElems xs) := by
  cases xs with
  | nil => exact ⟨[], by simp [renderElems], fun _ => rfl, fun h => absurd rfl h⟩
  | cons y ys =>
    exact ⟨',' :: renderElems (y :: ys), by simp [renderElems], fun h => List.noConfusion h,
      fun _ => rfl⟩

theorem parseElems_render : ∀ (xs : List Json),
    (∀ x ∈ xs, ∀ (f : Nat) (rest : List Char), (render x).length < f → noNumExt rest →
      parseVal f (render x ++ rest) = some (x, rest)) →
    xs ≠ [] → ∀ (f : Nat) (rest : List Char), (renderElems xs).length + 2 ≤ f →
      parseElems f (renderElems xs ++ ']' :: rest) = some (xs, rest) := by
  intro xs
  induction xs with
  | nil => intro _ h; exact absurd rfl h
  | cons x xs' ih =>
    intro IH _ f rest hf
    obtain ⟨f', rfl⟩ : ∃ f', f = f' + 1 := ⟨f - 1, by omega⟩
    cases xs' with
    | nil =>
      have hlen : (render x).length < f' := by
        have hh : (renderElems [x]).length = (render x).length := by simp [renderElems]
        omega
      have hx := IH x (by simp) f' (']' :: rest) hlen ⟨by decide, by decide, by decide, by decide⟩
      have hone : renderElems [x] = render x := by simp [renderElems]
      rw [hone]
      have hskip : skipWs (']' :: rest) = ']' :: rest := by
        simp [skipWs, List.dropWhile_cons, isWsChar]
      simp [parseElems, hx, hskip]
    | cons y ys =>
      have hsplit : renderElems (x :: y :: ys) ++ ']' :: rest =
          render x ++ (',' :: (renderElems (y :: ys) ++ ']' :: rest)) := by
        simp [renderElems, List.append_assoc]
      have hpos : 0 < (render x).length := by
        obtain ⟨c, cs, hr, _, _⟩ := render_head_basic x
        simp [hr]
      have hlen2 : (renderElems (y :: ys)).length + 2 ≤ f' := by
        have hh : (renderElems (x :: y :: ys)).length =
            (render x).length + 1 + (renderElems (y :: ys)).length := by
          simp [renderElems]
          omega
        omega
      have hlenx : (render x).length < f' := by
        have hh : (renderElems (x :: y :: ys)).length =
            (render x).length + 1 + (renderElems (y :: ys)).length := by
          simp [renderElems]
          omega
        omega
      have hx := IH x (by simp) f' (',' :: (renderElems (y :: ys) ++ ']' :: rest)) hlenx
        ⟨by decide, by decide, by decide, by decide⟩
      have hrec := ih (fun z hz => IH z (by simp [hz])) (by simp) f' rest hlen2
      have hskip : skipWs (',' :: (renderElems (y :: ys) ++ ']' :: rest)) =
          ',' :: (renderElems (y :: ys) ++ ']' :: rest) := by
        simp [skipWs, List.dropWhile_cons, isWsChar]
      rw [hsplit]
      simp [parseElems, hx, hskip, hrec]

theorem skipWs_cons (c : Char) (l : List Char) (h : isWsChar c = false) :
    skipWs (c :: l) = c :: l := by
  simp [skipWs, List.dropWhile_cons, h]

theorem parseMembers_render : ∀ (kvs : List (String × Json)),
    (∀ p ∈ kvs, ∀ (f : Nat) (rest : List Char), (render p.2).length < f → noNumExt rest →
      parseVal f (render p.2 ++ rest) = some (p.2, rest)) →
    kvs ≠ [] → ∀ (f : Nat) (rest : List Char), (renderMembers kvs).length + 2 ≤ f →
      parseMembers f (renderMembers kvs ++ rbrace :: rest) = some (kvs, rest) := by
  intro kvs
  induction kvs with
  | nil => intro _ h; exact absurd rfl h
  | cons p kvs' ih =>
    obtain ⟨k, v⟩ := p
    intro IH _ f rest hf
    obtain ⟨f', rfl⟩ : ∃ f', f = f' + 1 := ⟨f - 1, by omega⟩
    cases kvs' with
    | nil =>
      have hsplit : renderMembers [(k, v)] ++ rbrace :: rest =
          '"' :: (escapeList k.data ++ '"' :: (':' :: (render v ++ rbrace :: rest))) := by
        simp [renderMembers, List.append_assoc]
      have hlen : (render v).length < f' := by
        have hh : (renderMembers [(k, v)]).length =
            (escapeList k.data).length + 3 + (render v).length := by
          simp [renderMembers]
          omega
        omega
      have hv : parseVal f' (render v ++ rbrace :: rest) = some (v, rbrace :: rest) :=
        IH (k, v) (by simp) f' (rbrace :: rest) hlen
          ⟨by decide, by decide, by decide, by decide⟩
      rw [hsplit]
      have hstr := parseStrBody_escape k.data (':' :: (render v ++ rbrace :: rest))
      have hsk0 := skipWs_cons '"'
        (escapeList k.data ++ '"' :: (':' :: (render v ++ rbrace :: rest))) (by decide)
      have hsk1 := skipWs_cons ':' (render v ++ rbrace :: rest) (by decide)
      have hsk2 := skipWs_cons rbrace rest (by decide)
      simp [parseMembers, hsk0, hsk1, hsk2, hstr, hv, string_mk_data,
        show ¬rbrace = ',' from by decide]
    | cons q kvs2 =>
      have hsplit : renderMembers ((k, v) :: q :: kvs2) ++ rbrace :: rest =
          '"' :: (escapeList k.data ++ '"' :: (':' :: (render v ++
            ',' :: (renderMembers (q :: kvs2) ++ rbrace :: rest)))) := by
        simp [renderMembers, List.append_assoc]
      have hh : (renderMembers ((k, v) :: q :: kvs2)).length =
          (escapeList k.data).length + 4 + (render v).length +
            (renderMembers (q :: kvs2)).length := by
        simp [renderMembers]
        omega
      have hlen : (render v).length < f' := by omega
      have hlen2 : (renderMembers (q :: kvs2)).length + 2 ≤ f' := by omega
      have hv : parseVal f' (render v ++ ',' :: (renderMembers (q :: kvs2) ++ rbrace :: rest)) =
          some (v, ',' :: (renderMembers (q :: kvs2) ++ rbrace :: rest)) :=
        IH (k, v) (by simp) f'
          (',' :: (renderMembers (q :: kvs2) ++ rbrace :: rest)) hlen
          ⟨by decide, by decide, by decide, by decide⟩
      have hrec := ih (fun z hz => IH z (by simp [hz])) (by simp) f' rest hlen2
      rw [hsplit]
      have hstr := parseStrBody_escape k.data
        (':' :: (render v ++ ',' :: (renderMembers (q :: kvs2) ++ rbrace :: rest)))
      have hsk0 := skipWs_cons '"'
        (escapeList k.data ++ '"' :: (':' :: (render v ++
          ',' :: (renderMembers (q :: kvs2) ++ rbrace :: rest)))) (by decide)
      have hsk1 := skipWs_cons ':'
        (render v ++ ',' :: (renderMembers (q :: kvs2) ++ rbrace :: rest)) (by decide)
      have hsk3 := skipWs_cons ',' (renderMembers (q :: kvs2) ++ rbrace :: rest) (by decide)
      simp [parseMembers, hsk0, hsk1, hsk3, hstr, hv, hrec, string_mk_data]

theorem parseVal_render : ∀ (j : Json) (f : Nat) (rest : List Char),
    (render j).length < f → noNumExt rest →
    parseVal f (render j ++ rest) = some (j, rest) := by
  suffices H : ∀ (n : Nat) (j : Json), sizeOf j = n → ∀ (f : Nat) (rest : List Char),
      (render j).length < f → noNumExt rest →
      parseVal f (render j ++ rest) = some (j, rest) by
    intro j
    exact H (sizeOf j) j rfl
  intro n
  induction n using Nat.strong_induction_on with
  | _ n ihn =>
    intro j hsz f rest hf hrest
    obtain ⟨f', rfl⟩ : ∃ f', f = f' + 1 := ⟨f - 1, by omega⟩
    cases j with
    | null =>
      show parseVal (f' + 1) ('n' :: 'u' :: 'l' :: 'l' :: rest) = some (.null, rest)
      have hsk := skipWs_cons 'n' ('u' :: 'l' :: 'l' :: rest) (by decide)
      simp [parseVal, hsk]
    | bool b =>
      cases b
      · show parseVal (f' + 1) ('f' :: 'a' :: 'l' :: 's' :: 'e' :: rest) = some (.bool false, rest)
        have hsk := skipWs_cons 'f' ('a' :: 'l' :: 's' :: 'e' :: rest) (by decide)
        simp [parseVal, hsk]
      · show parseVal (f' + 1) ('t' :: 'r' :: 'u' :: 'e' :: rest) = some (.bool true, rest)
        have hsk := skipWs_cons 't' ('r' :: 'u' :: 'e' :: rest) (by decide)
        simp [parseVal, hsk]
    | num m e =>
      obtain ⟨c0, cs0, hr, htag⟩ := render_num_head m e
      have hws : isWsChar c0 = false := by
        rcases htag with rfl | hd
        · decide
        · exact digit_not_ws _ hd
      have hnum := parseNumBody_render m e rest hrest
      rw [hr, List.cons_append] at hnum ⊢
      have hn1 : ¬c0 = 'n' := by
        rcases htag with rfl | hd
        · decide
        · exact digit_ne _ hd _ (by decide)
      have hn2 : ¬c0 = 't' := by
        rcases htag with rfl | hd
        · decide
        · exact digit_ne _ hd _ (by decide)
      have hn3 : ¬c0 = 'f' := by
        rcases htag with rfl | hd
        · decide
        · exact digit_ne _ hd _ (by decide)
      have hn4 : ¬c0 = '"' := by
        rcases htag with rfl | hd
        · decide
        · exact digit_ne _ hd _ (by decide)
      have hn5 : ¬c0 = '[' := by
        rcases htag with rfl | hd
        · decide
        · exact digit_ne _ hd _ (by decide)
      have hn6 : ¬c0 = lbrace := by
        rcases htag with rfl | hd
        · decide
        · exact digit_ne _ hd _ (by decide)
      have hcond : (c0 = '-' || isDigitChar c0) = true := by
        rcases htag with rfl | hd
        · decide
        · simp [hd]
      have hsk := skipWs_cons c0 (cs0 ++ rest) hws
      simp [parseVal, hsk, hn1, hn2, hn3, hn4, hn5, hn6, hcond, hnum]
    | str s =>
      have hre : render (.str s) ++ rest = '"' :: (escapeList s.data ++ '"' :: rest) := by
        simp [render, List.append_assoc]
      rw [hre]
      have hsk := skipWs_cons '"' (escapeList s.data ++ '"' :: rest) (by decide)
      have hstr := parseStrBody_escape s.data rest
      simp [parseVal, hsk, hstr, string_mk_data]
    | arr xs =>
      cases xs with
      | nil =>
        have hre : render (.arr []) ++ rest = '[' :: ']' :: rest := by
          simp [render, renderElems]
        rw [hre]
        have hsk := skipWs_cons '[' (']' :: rest) (by decide)
        have hsk2 := skipWs_cons ']' rest (by decide)
        simp [parseVal, hsk, hsk2]
      | cons x xs' =>
        have hre : render (.arr (x :: xs')) ++ rest =
            '[' :: (renderElems (x :: xs') ++ ']' :: rest) := by
          simp [render, List.append_assoc]
        have hIH : ∀ y ∈ x :: xs', ∀ (g : Nat) (r : List Char),
            (render y).length < g → noNumExt r → parseVal g (render y ++ r) = some (y, r) := by
          intro y hy g r h1 h2
          have hs : sizeOf y < n := by
            rw [← hsz]
            have h3 := List.sizeOf_lt_of_mem hy
            simp only [Json.arr.sizeOf_spec]
            omega
          exact ihn (sizeOf y) hs y rfl g r h1 h2
        have hlen : (renderElems (x :: xs')).length + 2 ≤ f' := by
          have hh : (render (.arr (x :: xs'))).length = (renderElems (x :: xs')).length + 2 := by
            simp [render]
          omega
        have helems := parseElems_render (x :: xs') hIH (by simp) f' rest hlen
        obtain ⟨c0, cs0, hhd, hws0, hne0⟩ := render_head_basic x
        obtain ⟨tail2, htl, _, _⟩ := renderElems_cons x xs'
        have hcons : renderElems (x :: xs') ++ ']' :: rest =
            c0 :: (cs0 ++ (tail2 ++ ']' :: rest)) := by
          rw [htl, hhd]
          simp [List.append_assoc]
        rw [hre, hcons]
        have hskc := skipWs_cons c0 (cs0 ++ (tail2 ++ ']' :: rest)) hws0
        have helems2 : parseElems f' (c0 :: (cs0 ++ (tail2 ++ ']' :: rest))) =
            some (x :: xs', rest) := by
          rw [← hcons]
          exact helems
        have hsk0 := skipWs_cons '[' (c0 :: (cs0 ++ (tail2 ++ ']' :: rest))) (by decide)
        simp [parseVal, hsk0, hskc, helems2, hne0]
    | obj kvs =>
      cases kvs with
      | nil =>
        have hre : render (.obj []) ++ rest = lbrace :: rbrace :: rest := by
          simp [render, renderMembers]
        rw [hre]
        have hsk := skipWs_cons lbrace (rbrace :: rest) (by decide)
        have hsk2 := skipWs_cons rbrace rest (by decide)
        simp [parseVal, hsk, hsk2, show ¬lbrace = 'n' from by decide,
          show ¬lbrace = 't' from by decide, show ¬lbrace = 'f' from by decide,
          show ¬lbrace = '"' from by decide, show ¬lbrace = '[' from by decide,
          show lbrace = lbrace from rfl, show rbrace = rbrace from rfl]
      | cons p kvs' =>
        have hIH : ∀ q ∈ p :: kvs', ∀ (g : Nat) (r : List Char),
            (render q.2).length < g → noNumExt r →
            parseVal g (render q.2 ++ r) = some (q.2, r) := by
          intro q hq g r h1 h2
          have hs : sizeOf q.2 < n := by
            rw [← hsz]
            have h3 := List.sizeOf_lt_of_mem hq
            have h4 : sizeOf q = 1 + sizeOf q.1 + sizeOf q.2 := by
              obtain ⟨q1, q2⟩ := q
              simp
            simp only [Json.obj.sizeOf_spec]
            omega
          exact ihn (sizeOf q.2) hs q.2 rfl g r h1 h2
        have hlen : (renderMembers (p :: kvs')).length + 2 ≤ f' := by
          have hh : (render (.obj (p :: kvs'))).length =
              (renderMembers (p :: kvs')).length + 2 := by
            simp [render]
          omega
        have hmems := parseMembers_render (p :: kvs') hIH (by simp) f' rest hlen
        obtain ⟨Z, hZ⟩ : ∃ Z, renderMembers (p :: kvs') = '"' :: Z := by
          obtain ⟨k, v⟩ := p
          cases kvs' with
          | nil => exact ⟨escapeList k.data ++ '"' :: ':' :: render v, by simp [renderMembers]⟩
          | cons q kvs2 =>
            exact ⟨escapeList k.data ++ '"' :: ':' :: render v ++
              ',' :: renderMembers (q :: kvs2), by simp [renderMembers]⟩
        have hre : render (.obj (p :: kvs')) ++ rest =
            lbrace :: ('"' :: (Z ++ rbrace :: rest)) := by
          simp [render, hZ, List.append_assoc]
        rw [hre]
        have hmems2 : parseMembers f' ('"' :: (Z ++ rbrace :: rest)) =
            some (p :: kvs', rest) := by
          have : renderMembers (p :: kvs') ++ rbrace :: rest = '"' :: (Z ++ rbrace :: rest) := by
            rw [hZ]
            simp [List.append_assoc]
          rw [← this]
          exact hmems
        have hsk0 := skipWs_cons lbrace ('"' :: (Z ++ rbrace :: rest)) (by decide)
        have hsk1 := skipWs_cons '"' (Z ++ rbrace :: rest) (by decide)
        simp [parseVal, hsk0, hsk1, hmems2, show ¬lbrace = 'n' from by decide,
          show ¬lbrace = 't' from by decide, show ¬lbrace = 'f' from by decide,
          show ¬lbrace = '"' from by decide, show ¬lbrace = '[' from by decide,
          show lbrace = lbrace from rfl, show ¬('"' : Char) = rbrace from by decide]

theorem jsonParse_stringify (j : Json) : jsonParse (jsonStringify j) = some j := by
  unfold jsonParse jsonStringify
  have hdata : (String.mk (render j)).data = render j := rfl
  rw [hdata]
  have h := parseVal_render j ((render j).length + 1) [] (by omega) trivial
  rw [List.append_nil] at h
  rw [h]
  rfl

/-- C8: serializing a JSON object with the Metadata Codec and parsing the
result returns an equal object; a value that is already a string passes
through serialization unchanged; and a failing serialization yields `null`
rather than raising. -/
theorem metadata_codec_round_trip :
    (∀ (kvs : List (String × Json)) (label : String),
      (stringifyMetadata (some (.obj kvs))).map
          (fun s => parseJsonField label (.val s)) = some (.ok (some (.obj kvs)))) ∧
    (∀ s, stringifyMetadata (some (.str s)) = some s) ∧
    (∀ (ser : Json → Option String) (j : Json), (∀ s, j ≠ .str s) → ser j = none →
      stringifyMetadataWith ser (some j) = none) := by
  refine ⟨?_, fun s => rfl, ?_⟩
  · intro kvs label
    have hs : stringifyMetadata (some (.obj kvs)) = some (jsonStringify (.obj kvs)) := rfl
    rw [hs]
    have hne : jsonStringify (.obj kvs) ≠ "" := by
      intro hemp
      have hd : render (.obj kvs) = [] := congrArg String.data hemp
      have hd2 : render (.obj kvs) = lbrace :: (renderMembers kvs ++ [rbrace]) := by
        simp [render]
      rw [hd2] at hd
      exact List.noConfusion hd
    have hp := jsonParse_stringify (.obj kvs)
    simp [parseJsonField, hne, hp]
  · intro ser j hstr hser
    cases j with
    | str s => exact absurd rfl (hstr s)
    | null => simp [stringifyMetadataWith, hser]
    | bool b => simp [stringifyMetadataWith, hser]
    | num m e => simp [stringifyMetadataWith, hser]
    | arr xs => simp [stringifyMetadataWith, hser]
    | obj kvs => simp [stringifyMetadataWith, hser]

/-- Witness for C8: a serializer failure on a non-string value collapses to
`null` instead of raising. -/
theorem metadata_codec_round_trip_witness :
    stringifyMetadataWith (fun _ => none) (some (.bool true)) = none :=
  metadata_codec_round_trip.2.2 (fun _ => none) (.bool true) (fun _ h => Json.noConfusion h) rfl
